import Mathlib

/-!
# Verification of the DCA++ threaded Monte Carlo integration core

Shallow embedding of the following source files, together with theorems
settling the specification's claims about them:

* `include/dca/linalg/matrix_view.hpp` — the column-major matrix view;
* `include/dca/phys/dca_step/symmetrization/symmetrize_single_particle_function.hpp`
  — the single-particle symmetrizer;
* `include/dca/phys/dca_step/cluster_solver/stdthread_qmci/stdthread_qmci_cluster_solver.hpp`
  — the threaded QMC coordinator (walker / accumulator rendezvous).

Machine integers are modelled as `ℕ`/`ℤ` (all indices involved are checked
non-negative in the source), real scalars as `ℚ` and complex scalars as pairs
of rationals, so that every formula of the source is carried out exactly.
-/

namespace DCA

/-! ## Matrix view (`matrix_view.hpp`)

A `MatrixView` is the tuple `(ptr_, ldm_, size_.first, size_.second)`.  The
underlying buffer is modelled as a total function from pointer offsets to
values; pointer arithmetic on `ScalarType*` becomes index arithmetic. -/

structure MatrixView (α : Type*) where
  base : ℕ → α
  ld : ℕ
  rows : ℕ
  cols : ℕ

namespace MatrixView

variable {α : Type*}

/-- `operator()(int i, int j)` (matrix_view.hpp lines 84–93): the element is
`ptr_[i + j * ldm_]`. -/
def elem (m : MatrixView α) (i j : ℕ) : α :=
  m.base (i + j * m.ld)

/-- The five-argument constructor `MatrixView(mat, offset_i, offset_j, ni, nj)`
(matrix_view.hpp lines 127–134): the new view keeps the parent's leading
dimension and starts at `mat.ptr(offset_i, offset_j) = ptr_ + ldm_*offset_j + offset_i`. -/
def sub (m : MatrixView α) (oi oj ni nj : ℕ) : MatrixView α :=
  ⟨fun n => m.base (m.ld * oj + oi + n), m.ld, ni, nj⟩

/-- Debug assertions of `ptr(int i, int j)` (matrix_view.hpp lines 65–74):
`assert(0 <= i && i <= size_.first); assert(0 <= j && j <= size_.second);`.
Note the *inclusive* upper bounds. -/
def ptrAccepts (m : MatrixView α) (i j : ℤ) : Prop :=
  0 ≤ i ∧ i ≤ (m.rows : ℤ) ∧ 0 ≤ j ∧ j ≤ (m.cols : ℤ)

/-- Debug assertions of `operator()(int i, int j)` (matrix_view.hpp lines 84–93):
`assert(0 <= i && i < size_.first); assert(0 <= j && j < size_.second);`. -/
def elemAccepts (m : MatrixView α) (i j : ℤ) : Prop :=
  0 ≤ i ∧ i < (m.rows : ℤ) ∧ 0 ≤ j ∧ j < (m.cols : ℤ)

/-- Debug assertions of the two-offset constructor `MatrixView(mat, offset_i,
offset_j)` (matrix_view.hpp lines 118–125):
`assert(offset_i < mat.nrCols()); assert(offset_j < mat.nrRows());` —
`offset_i` is compared against the column count and `offset_j` against the
row count. -/
def offsetCtorAsserts (m : MatrixView α) (oi oj : ℤ) : Prop :=
  oi < (m.cols : ℤ) ∧ oj < (m.rows : ℤ)

instance (m : MatrixView α) (i j : ℤ) : Decidable (m.ptrAccepts i j) := by
  unfold ptrAccepts; infer_instance

instance (m : MatrixView α) (i j : ℤ) : Decidable (m.elemAccepts i j) := by
  unfold elemAccepts; infer_instance

instance (m : MatrixView α) (oi oj : ℤ) : Decidable (m.offsetCtorAsserts oi oj) := by
  unfold offsetCtorAsserts; infer_instance

end MatrixView

/-- A concrete 2×3 view over an integer-valued buffer, used as witness input. -/
def mvExample : MatrixView ℤ :=
  ⟨fun n => (n : ℤ), 2, 2, 3⟩

/-! ## Single-particle symmetrizer (`symmetrize_single_particle_function.hpp`)

Real scalars are modelled as `ℚ`, complex scalars as pairs of rationals
(`CQ`), so every averaging formula of the source is exact. -/

/-- `std::complex` over exact rationals. -/
structure CQ where
  re : ℚ
  im : ℚ
deriving DecidableEq

namespace CQ

instance : Add CQ := ⟨fun a b => ⟨a.re + b.re, a.im + b.im⟩⟩
instance : Sub CQ := ⟨fun a b => ⟨a.re - b.re, a.im - b.im⟩⟩
instance : Neg CQ := ⟨fun a => ⟨-a.re, -a.im⟩⟩

/-- `std::conj`. -/
def conj (a : CQ) : CQ := ⟨a.re, -a.im⟩

/-- Division by the real literal `2.`. -/
def div2 (a : CQ) : CQ := ⟨a.re / 2, a.im / 2⟩

/-- The zero of a default-initialized `func::function` buffer. -/
instance : Zero CQ := ⟨⟨0, 0⟩⟩

end CQ

/-- Time-domain overload `execute(function<scalartype, t>& f, do_diff)`
(symmetrize_single_particle_function.hpp lines 334–350).  The loop runs over
`i < Nt/2` with `shift = Nt/2`, writing `f(i) ← (f(i) − f(i+shift))/2` and
`f(i+shift) ← −(f(i) − f(i+shift))/2`; every value read is still the original
one (iteration `i` reads only slots `i` and `i+shift`, which no earlier
iteration wrote), so the in-place loop equals this closed form.  Slots
`≥ 2·(Nt/2)` are never touched. -/
def timeSym (n : ℕ) (f : ℕ → ℚ) : ℕ → ℚ := fun i =>
  if i < n / 2 then (f i - f (i + n / 2)) / 2
  else if i < n / 2 + n / 2 then -((f (i - n / 2) - f i) / 2)
  else f i

/-- The `max` accumulated by the same loop:
`max = std::max(max, abs((f(i) + f(i + shift)) / 2.))` starting from `0`. -/
def timeSymMax (n : ℕ) (f : ℕ → ℚ) : ℚ :=
  ((List.range (n / 2)).map fun i => |(f i + f (i + n / 2)) / 2|).foldl max 0

/-- Frequency-domain overload `execute(function<scalartype, w>& f, do_diff)`
(symmetrize_single_particle_function.hpp lines 381–395); the `w_VERTEX`
(lines 437–452) and `w_VERTEX_EXTENDED` (lines 454–469) overloads are the
same loop on their own domains.  For `i < Nω/2` it writes
`f(i) ← (f(i) + conj(f(Nω−1−i)))/2` and `f(Nω−1−i) ← conj` of that value; all
reads are of yet-unwritten slots, so the in-place loop equals this closed
form. -/
def wSym (n : ℕ) (f : ℕ → CQ) : ℕ → CQ := fun i =>
  if i < n / 2 then (f i + (f (n - 1 - i)).conj).div2
  else if n - n / 2 ≤ i ∧ i < n then ((f (n - 1 - i) + (f i).conj).div2).conj
  else f i

/-- Real-frequency overload `execute(function<scalartype, w_REAL>& f, do_diff)`
(symmetrize_single_particle_function.hpp lines 429–435): the body is empty,
an explicit identity (likewise the `b, b, w_REAL` overload). -/
def wRealSym (f : ℕ → ℚ) : ℕ → ℚ := f

/-- Band-pair time overload `execute(function<scalartype, dmn_variadic<b,b,t>>& f)`
(symmetrize_single_particle_function.hpp lines 352–379).  A fresh
default-initialized (zero) buffer `f_new` receives, for `t_ind < Nt/2` and
every band pair, `f_new(b0,b1,t) = (f(b0,b1,t) − f(b1,b0,t+Nt/2))/2` and
`f_new(b1,b0,t+Nt/2)` its negation; the whole of `f` is then overwritten by
`f_new`, so slots with `t ≥ 2·(Nt/2)` become the buffer's zero. -/
def timeSymBB (nB n : ℕ) (f : ℕ → ℕ → ℕ → ℚ) : ℕ → ℕ → ℕ → ℚ := fun b0 b1 i =>
  if b0 < nB ∧ b1 < nB ∧ i < n then
    if i < n / 2 then (f b0 b1 i - f b1 b0 (i + n / 2)) / 2
    else if i < n / 2 + n / 2 then -((f b1 b0 (i - n / 2) - f b0 b1 i) / 2)
    else 0
  else f b0 b1 i

/-- Band-pair frequency overload `execute(function<scalartype, dmn_variadic<b,b,w>>& f)`
(symmetrize_single_particle_function.hpp lines 397–427), with
`w_0 = Nω − 1`: `f_new(b0,b1,w) = (f(b0,b1,w) + conj(f(b1,b0,w_0−w)))/2`,
`f_new(b1,b0,w_0−w) = conj` of that, for `w < Nω/2`; then `f ← f_new`. -/
def wSymBB (nB n : ℕ) (f : ℕ → ℕ → ℕ → CQ) : ℕ → ℕ → ℕ → CQ := fun b0 b1 i =>
  if b0 < nB ∧ b1 < nB ∧ i < n then
    if i < n / 2 then (f b0 b1 i + (f b1 b0 (n - 1 - i)).conj).div2
    else if n - n / 2 ≤ i then ((f b1 b0 (n - 1 - i) + (f b0 b1 i).conj).div2).conj
    else 0
  else f b0 b1 i

/-- `symmetrize_over_electron_spin` (symmetrize_single_particle_function.hpp
lines 276–295): for every band pair and pair of trailing indices the
off-diagonal spin blocks are zeroed and the diagonal ones are both set to
their average.  The averaged value is read before any diagonal write. -/
def spinSym (nB n0 n1 : ℕ) (f : ℕ → ℕ → ℕ → ℕ → ℕ → ℕ → ℚ) :
    ℕ → ℕ → ℕ → ℕ → ℕ → ℕ → ℚ := fun i s1 j s2 x0 x1 =>
  if i < nB ∧ j < nB ∧ s1 < 2 ∧ s2 < 2 ∧ x0 < n0 ∧ x1 < n1 then
    if s1 = s2 then (f i 0 j 0 x0 x1 + f i 1 j 1 x0 x1) / 2 else 0
  else f i s1 j s2 x0 x1

/-- Scalar cluster overload (symmetrize_single_particle_function.hpp lines
471–513 for `REAL_SPACE`; lines 567–609 are the textually identical
`MOMENTUM_SPACE` twin): `f_new(r) = Σ_S f(sym(r, 0, S).first)`, divided by the
group order `|G|`, then copied back.  `sym` is the precomputed symmetry table
`r_symmetry_matrix` / `k_symmetry_matrix`. -/
def clusterSym (nR nG : ℕ) (sym : ℕ → ℕ → ℕ → ℕ × ℕ) (f : ℕ → ℚ) : ℕ → ℚ :=
  fun r =>
    if r < nR then (∑ S ∈ Finset.range nG, f (sym r 0 S).1) / (nG : ℚ) else f r

/-- Band-pair real-space cluster overload (symmetrize_single_particle_function.hpp
lines 515–565): `f_new(b0, b1, r) += f(sym(0, b0, S).second,
sym(r, b1, S).second, sym(r, 0, S).first)` over the group, divided by `|G|`. -/
def clusterSymBBr (nB nR nG : ℕ) (sym : ℕ → ℕ → ℕ → ℕ × ℕ)
    (f : ℕ → ℕ → ℕ → ℚ) : ℕ → ℕ → ℕ → ℚ := fun b0 b1 r =>
  if b0 < nB ∧ b1 < nB ∧ r < nR then
    (∑ S ∈ Finset.range nG, f (sym 0 b0 S).2 (sym r b1 S).2 (sym r 0 S).1) / (nG : ℚ)
  else f b0 b1 r

/-- Band-pair momentum-space cluster overload (symmetrize_single_particle_function.hpp
lines 611–658).  Note the source's `K_new_ind = k_symmetry_matrix(k_ind, b0,
S_ind).first` (line 636, `FIXME` in the source): the new momentum index is
looked up at band `b0`, unlike the real-space path which uses band `0`. -/
def clusterSymBBk (nB nK nG : ℕ) (sym : ℕ → ℕ → ℕ → ℕ × ℕ)
    (f : ℕ → ℕ → ℕ → ℚ) : ℕ → ℕ → ℕ → ℚ := fun b0 b1 k =>
  if b0 < nB ∧ b1 < nB ∧ k < nK then
    (∑ S ∈ Finset.range nG, f (sym 0 b0 S).2 (sym k b1 S).2 (sym k b0 S).1) / (nG : ℚ)
  else f b0 b1 k

/-- Common closed form of both band-pair cluster averages once the symmetry
table factors into a position action `σS` and a band action `βS` (proof
device; the claims are stated about the two source-form definitions above). -/
def bandClusterAvg (nB nR nG : ℕ) (σS βS : ℕ → ℕ → ℕ)
    (f : ℕ → ℕ → ℕ → ℚ) : ℕ → ℕ → ℕ → ℚ := fun b0 b1 r =>
  if b0 < nB ∧ b1 < nB ∧ r < nR then
    (∑ S ∈ Finset.range nG, f (βS S b0) (βS S b1) (σS S r)) / (nG : ℚ)
  else f b0 b1 r

/-- The time-domain example of the spec: `f = [1, 2, 3, 4]` on `Nt = 4`. -/
def exF : ℕ → ℚ := fun i => ([1, 2, 3, 4] : List ℚ).getD i 0

/-- Expected output of time symmetrization on `exF`. -/
def exFOut : ℕ → ℚ := fun i => ([-1, -1, 1, 1] : List ℚ).getD i 0

/-- A concrete complex-valued frequency function on `Nω = 4`, witness input. -/
def exW : ℕ → CQ := fun i => ⟨(i : ℚ) + 1, (i : ℚ)⟩

/-- Trivial one-element symmetry table (identity group), witness input. -/
def symTriv : ℕ → ℕ → ℕ → ℕ × ℕ := fun _ _ _ => (0, 0)

/-- The constantly-zero index map, the factored form of `symTriv`. -/
def zeroMap : ℕ → ℕ → ℕ := fun _ _ => 0

/-- Concrete band-pair time function, witness input. -/
def exFBB : ℕ → ℕ → ℕ → ℚ := fun b0 b1 i => (b0 : ℚ) + b1 + i

/-- Concrete band-pair frequency function, witness input. -/
def exWBB : ℕ → ℕ → ℕ → CQ := fun b0 b1 i => ⟨(b0 : ℚ) + i, (b1 : ℚ)⟩

/-- Concrete spin-resolved function, witness input. -/
def exSpin : ℕ → ℕ → ℕ → ℕ → ℕ → ℕ → ℚ := fun i s1 j s2 x0 x1 =>
  (i : ℚ) + s1 + j + s2 + x0 + x1

/-! ## Threaded QMC coordinator (`stdthread_qmci_cluster_solver.hpp`) -/

/-- Modelled from the spec: `parallel::util::getWorkload`
(`dca/parallel/util/get_workload.hpp`, whose definition is not under `src/`;
only the call sites are).  Spec §4.2: `split(total, n, i) = ⌊total/n⌋ +
(1 if i < total mod n else 0)`. -/
def getWorkload (total n i : ℕ) : ℕ :=
  total / n + (if i < total % n then 1 else 0)

/-- `iterateOverLocalMeasurements` (stdthread_qmci_cluster_solver.hpp lines
296–317), fixed-per-walker branch: `n_local_meas = getWorkload(total_meas,
get_walkers(), walker_id)` and a private counted loop
`for (meas_id = 0; meas_id < n_local_meas; ++meas_id) f(meas_id, …)` invokes
the callback once per `meas_id`; the returned list holds the `meas_id`
argument of each invocation in order. -/
def iterateFixedMeasurements (totalMeas W walkerId : ℕ) : List ℕ :=
  List.range (getWorkload totalMeas W walkerId)

/-- Constructor check (stdthread_qmci_cluster_solver.hpp lines 124–127):
`if (nr_walkers_ < 1 || nr_accumulators_ < 1) throw std::logic_error(...)`. -/
def constructorCheck (W A : ℤ) : Except String Unit :=
  if W < 1 ∨ A < 1 then
    .error "Both the number of walkers and the number of accumulators must be at least 1."
  else .ok ()

/-- The three thread-task roles of the task table. -/
inductive TaskKind where
  | walker
  | accumulator
  | walkerAndAccumulator
deriving DecidableEq

/-- Task dispatch inside `integrate()` (stdthread_qmci_cluster_solver.hpp
lines 168–177): a task string other than the three known roles throws
`std::logic_error("Thread task is undefined.")`. -/
def dispatchTask (task : String) : Except String TaskKind :=
  if task = "walker" then .ok .walker
  else if task = "accumulator" then .ok .accumulator
  else if task = "walker and accumulator" then .ok .walkerAndAccumulator
  else .error "Thread task is undefined."

/-- The `|G| > 0` check of the scalar real-space cluster overload
(symmetrize_single_particle_function.hpp lines 499–502):
`if (size > 0) f_new /= size; else throw std::logic_error(__FUNCTION__);`. -/
def clusterSymChecked (nR nG : ℕ) (sym : ℕ → ℕ → ℕ → ℕ × ℕ) (f : ℕ → ℚ) :
    Except String (ℕ → ℚ) :=
  if 0 < nG then .ok (clusterSym nR nG sym f) else .error "execute"

/-- Operations performed on a snapshot archive. -/
inductive ArchiveOp where
  | openWriter (path : String)
  | openReader (path : String)
  | writeKey (key : String)
  | readKey (key : String)
deriving DecidableEq

/-- Result of a snapshot routine: the archive operations it performed and the
final contents of the per-walker configuration buffers (`config_dump_`). -/
structure SnapshotIO where
  ops : List ArchiveOp
  buffers : List (List ℕ)
deriving DecidableEq

/-- `readConfigurations()` (stdthread_qmci_cluster_solver.hpp lines 431–449),
exactly as written in the source: it returns early when the *read* directory
is empty, but then builds the path from `get_directory_config_write()`, opens
it with an `io::HDF5Writer`, and calls `writer.execute(key, config_dump_[id])`
— a write — for each walker index.  On an exception (`openFails`) every slot
of `config_dump_` is cleared and the error is logged. -/
def readConfigurations (readDir writeDir : String) (pid : ℕ)
    (buffers : List (List ℕ)) (openFails : Bool) : SnapshotIO :=
  if readDir = "" then ⟨[], buffers⟩
  else
    let path := writeDir ++ "/process_" ++ toString pid ++ ".hdf5"
    if openFails then ⟨[.openWriter path], buffers.map fun _ => []⟩
    else
      ⟨.openWriter path :: (List.range buffers.length).map
          (fun id => .writeKey ("configuration_" ++ toString id)),
        buffers⟩

/-- Modelled from the spec: the intended snapshot-read routine.  Spec §4.4
"On read: open the same path, read each key into its slot; on any failure
clear all slots" — with §9 noting that the source instead opens the
write-directory path with a writer.  This version opens
`<read_dir>/process_<pid>.hdf5` with a reader and reads key
`configuration_<i>` into slot `i` of `config_dump_`. -/
def readConfigurationsSpec (readDir : String) (pid : ℕ) (archive : ℕ → List ℕ)
    (buffers : List (List ℕ)) (openFails : Bool) : SnapshotIO :=
  if readDir = "" then ⟨[], buffers⟩
  else
    let path := readDir ++ "/process_" ++ toString pid ++ ".hdf5"
    if openFails then ⟨[.openReader path], buffers.map fun _ => []⟩
    else
      ⟨.openReader path :: (List.range buffers.length).map
          (fun id => .readKey ("configuration_" ++ toString id)),
        (List.range buffers.length).map archive⟩

/-! ### Interleaving model of the walker/accumulator rendezvous

`startWalker` (stdthread_qmci_cluster_solver.hpp lines 209–265),
`startAccumulator` (lines 319–354) and `iterateOverLocalMeasurements`
(lines 296–317) are embedded as a small-step transition system: one
transition per atomic action (an atomic load/increment, or a critical
section of `mutex_queue_`).  The blocking waits of the source (the walker's
condition-variable wait on a non-empty queue, the accumulator's wait on its
private event) appear as transitions that are only enabled once the awaited
condition holds.  The accumulator's private event and its two wake-up
reasons are modelled from the spec (§4.3 accumulator protocol, §6
accumulator contract: `updateFrom` signals a sample, `notifyDone` wakes the
waiter with a terminate flag), since the `StdThreadQmciAccumulator` wrapper
is not under `src/`. -/

/-- Walker thread control locations. -/
inductive WPhase where
  | entry                 -- before the measurement loop
  | testing               -- about to evaluate the loop condition
  | holding (acc : ℕ)     -- popped accumulator `acc`, about to `updateFrom`
  | finishing             -- its increment made `walk_finished == W`; about to drain
  | done
deriving DecidableEq

/-- Accumulator thread control locations. -/
inductive APhase where
  | checking              -- at the top of the `while` loop
  | inQueue               -- pushed on the idle stack, waiting on the event
  | hasSample             -- woken by `updateFrom`, about to `measure()`
  | notified              -- woken by `notifyDone`, about to exit the loop
  | exited
deriving DecidableEq

structure WalkerSt where
  phase : WPhase
  measId : ℕ              -- the loop counter `meas_id`
  produced : ℕ            -- number of `updateFrom` calls performed
deriving DecidableEq

structure AccSt where
  phase : APhase
  measured : ℕ            -- number of `measure()` calls
deriving DecidableEq

/-- Shared state of the threaded integration. -/
structure MCState where
  walkers : ℕ → WalkerSt
  accs : ℕ → AccSt
  queue : List ℕ          -- `accumulators_queue_`, top first
  walkFinished : ℕ        -- `walk_finished_`
  measDone : ℕ            -- `measurements_done_`

/-- Static configuration: walker count, accumulator count, per-process
measurement total, fixed-per-walker flag. -/
structure MCConfig where
  W : ℕ
  A : ℕ
  M : ℕ
  fixed : Bool

/-- `n_local_meas` of `iterateOverLocalMeasurements`. -/
def nLocal (cfg : MCConfig) (w : ℕ) : ℕ :=
  if cfg.fixed then getWorkload cfg.M cfg.W w else cfg.M

/-- State after `initialize`: every walker before its loop, every accumulator
at its loop head, empty idle stack, both counters zero. -/
def initState : MCState :=
  ⟨fun _ => ⟨.entry, 0, 0⟩, fun _ => ⟨.checking, 0⟩, [], 0, 0⟩

/-- `notifyDone()` on every accumulator currently on the idle stack. -/
def notifyAll (queue : List ℕ) (accs : ℕ → AccSt) : ℕ → AccSt :=
  fun a => if a ∈ queue then { accs a with phase := .notified } else accs a

/-- One interleaved step of the integration. -/
inductive Step (cfg : MCConfig) : MCState → MCState → Prop where
  /-- Measurement-loop entry: `meas_id = 0` in the fixed branch,
  `meas_id = measurements_done_` (an atomic load, without reservation) in the
  shared branch. -/
  | wEntry (s : MCState) (w : ℕ) (hw : w < cfg.W)
      (hp : (s.walkers w).phase = .entry) :
      Step cfg s { s with walkers := (Function.update s.walkers w
        { s.walkers w with phase := .testing,
                           measId := if cfg.fixed then 0 else s.measDone }) }
  /-- Loop condition true (`meas_id < n_local_meas`): sweep, then under
  `mutex_queue_` wait for a non-empty idle stack and pop its top. -/
  | wPop (s : MCState) (w : ℕ) (a : ℕ) (rest : List ℕ) (hw : w < cfg.W)
      (hp : (s.walkers w).phase = .testing)
      (hlt : (s.walkers w).measId < nLocal cfg w)
      (hq : s.queue = a :: rest) :
      Step cfg s { s with
        walkers := Function.update s.walkers w { s.walkers w with phase := .holding a },
        queue := rest }
  /-- `acc_ptr->updateFrom(walker)`: transfer the sample, signalling the
  accumulator's event; then advance the loop counter (`++meas_id` fixed,
  `meas_id = ++measurements_done_` shared). -/
  | wHandoff (s : MCState) (w : ℕ) (a : ℕ) (hw : w < cfg.W)
      (hp : (s.walkers w).phase = .holding a) :
      Step cfg s { s with
        walkers := (Function.update s.walkers w
          { phase := .testing,
            measId := if cfg.fixed then (s.walkers w).measId + 1 else s.measDone + 1,
            produced := (s.walkers w).produced + 1 }),
        accs := Function.update s.accs a { s.accs a with phase := .hasSample },
        measDone := if cfg.fixed then s.measDone else s.measDone + 1 }
  /-- Loop condition false: `++walk_finished_`; the walker whose increment
  reaches `W` proceeds to the drain, the others are done. -/
  | wIncr (s : MCState) (w : ℕ) (hw : w < cfg.W)
      (hp : (s.walkers w).phase = .testing)
      (hge : ¬ (s.walkers w).measId < nLocal cfg w) :
      Step cfg s { s with
        walkers := (Function.update s.walkers w { s.walkers w with phase :=
          if s.walkFinished + 1 = cfg.W then .finishing else .done }),
        walkFinished := s.walkFinished + 1 }
  /-- The last walker, under `mutex_queue_`, pops every queued accumulator
  and calls `notifyDone()` on it. -/
  | wDrain (s : MCState) (w : ℕ) (hw : w < cfg.W)
      (hp : (s.walkers w).phase = .finishing) :
      Step cfg s { s with
        walkers := Function.update s.walkers w { s.walkers w with phase := .done },
        accs := notifyAll s.queue s.accs,
        queue := [] }
  /-- Accumulator loop head, under `mutex_queue_`, with all walkers finished:
  break out of the loop (then merge under `mutex_merge_`). -/
  | aCheckExit (s : MCState) (a : ℕ) (ha : a < cfg.A)
      (hp : (s.accs a).phase = .checking)
      (hdone : s.walkFinished = cfg.W) :
      Step cfg s { s with accs := (Function.update s.accs a
        { s.accs a with phase := .exited }) }
  /-- Accumulator loop head with walkers still running: push self on the
  idle stack and signal `queue_insertion_`, then block on the private event. -/
  | aCheckPush (s : MCState) (a : ℕ) (ha : a < cfg.A)
      (hp : (s.accs a).phase = .checking)
      (hrun : s.walkFinished ≠ cfg.W) :
      Step cfg s { s with
        accs := Function.update s.accs a { s.accs a with phase := .inQueue },
        queue := a :: s.queue }
  /-- Woken by `updateFrom`: `measure()` the received sample and loop. -/
  | aMeasure (s : MCState) (a : ℕ) (ha : a < cfg.A)
      (hp : (s.accs a).phase = .hasSample) :
      Step cfg s { s with accs := (Function.update s.accs a
        { phase := .checking, measured := (s.accs a).measured + 1 }) }
  /-- Woken by `notifyDone`: exit the loop without measuring. -/
  | aExitNotified (s : MCState) (a : ℕ) (ha : a < cfg.A)
      (hp : (s.accs a).phase = .notified) :
      Step cfg s { s with accs := (Function.update s.accs a
        { s.accs a with phase := .exited }) }

/-- States reachable from `initState` by interleaved steps: the runs of the
integration. -/
def Reachable (cfg : MCConfig) (s : MCState) : Prop :=
  Relation.ReflTransGen (Step cfg) initState s

/-- A completed run: every walker and every accumulator thread has returned. -/
def Terminal (cfg : MCConfig) (s : MCState) : Prop :=
  (∀ w, w < cfg.W → (s.walkers w).phase = .done) ∧
  (∀ a, a < cfg.A → (s.accs a).phase = .exited)

/-- Total number of samples handed off by walkers (`updateFrom` calls). -/
def sumProduced (cfg : MCConfig) (s : MCState) : ℕ :=
  ∑ w ∈ Finset.range cfg.W, (s.walkers w).produced

/-- Total number of `measure()` calls over all accumulators. -/
def sumMeasured (cfg : MCConfig) (s : MCState) : ℕ :=
  ∑ a ∈ Finset.range cfg.A, (s.accs a).measured

/-- Number of accumulators currently holding an unmeasured sample. -/
def sumHasSample (cfg : MCConfig) (s : MCState) : ℕ :=
  ∑ a ∈ Finset.range cfg.A, (if (s.accs a).phase = .hasSample then 1 else 0)

/-- Loop-counter bookkeeping of a walker in fixed-per-walker mode. -/
def fixedOK (cfg : MCConfig) (ws : WalkerSt) (w : ℕ) : Prop :=
  (ws.phase = .entry → ws.produced = 0) ∧
  (ws.phase = .testing → ws.produced = ws.measId ∧ ws.measId ≤ nLocal cfg w) ∧
  (∀ a, ws.phase = .holding a → ws.produced = ws.measId ∧ ws.measId < nLocal cfg w) ∧
  ((ws.phase = .finishing ∨ ws.phase = .done) → ws.produced = nLocal cfg w)

/-- Run invariant: queue entries are distinct waiting accumulators; a walker
mid-handoff holds a waiting accumulator no one else references; every
produced sample is either already measured or sitting, unmeasured, with
exactly one accumulator; fixed-mode walkers produce exactly one sample per
loop iteration. -/
structure Inv (cfg : MCConfig) (s : MCState) : Prop where
  qmem : ∀ a ∈ s.queue, a < cfg.A ∧ (s.accs a).phase = .inQueue
  qnodup : s.queue.Nodup
  holder : ∀ w, w < cfg.W → ∀ a, (s.walkers w).phase = .holding a →
    a < cfg.A ∧ (s.accs a).phase = .inQueue ∧ a ∉ s.queue ∧
      ∀ w', w' < cfg.W → w' ≠ w → (s.walkers w').phase ≠ .holding a
  count : sumMeasured cfg s + sumHasSample cfg s = sumProduced cfg s
  fixedInv : cfg.fixed = true → ∀ w, w < cfg.W → fixedOK cfg (s.walkers w) w

/-- The shared-counter configuration of the counterexample run:
`W = 2` walkers, `A = 1` accumulator, `M_local = 1`, fixed flag off. -/
def cfgCex : MCConfig := ⟨2, 1, 1, false⟩

namespace CQ

theorem add_def (a b : CQ) : a + b = ⟨a.re + b.re, a.im + b.im⟩ := rfl

theorem sub_def (a b : CQ) : a - b = ⟨a.re - b.re, a.im - b.im⟩ := rfl

theorem neg_def (a : CQ) : -a = ⟨-a.re, -a.im⟩ := rfl

theorem conj_conj (a : CQ) : a.conj.conj = a := by
  cases a; simp [conj]

theorem conj_div2 (a : CQ) : a.div2.conj = a.conj.div2 := by
  cases a; simp [conj, div2, neg_div]

theorem add_self_div2 (a : CQ) : (a + a).div2 = a := by
  cases a
  simp [add_def, div2, add_self_div_two]

end CQ

theorem timeSym_lo {n i : ℕ} (f : ℕ → ℚ) (h : i < n / 2) :
    timeSym n f i = (f i - f (i + n / 2)) / 2 := by
  simp [timeSym, h]

theorem timeSym_hi {n i : ℕ} (f : ℕ → ℚ) (h1 : n / 2 ≤ i) (h2 : i < n / 2 + n / 2) :
    timeSym n f i = -((f (i - n / 2) - f i) / 2) := by
  have h0 : ¬ i < n / 2 := by omega
  simp [timeSym, h0, h2]

theorem timeSym_out {n i : ℕ} (f : ℕ → ℚ) (h1 : ¬ i < n / 2)
    (h2 : ¬ i < n / 2 + n / 2) : timeSym n f i = f i := by
  simp [timeSym, h1, h2]

theorem wSym_lo {n i : ℕ} (f : ℕ → CQ) (h : i < n / 2) :
    wSym n f i = (f i + (f (n - 1 - i)).conj).div2 := by
  simp [wSym, h]

theorem wSym_hi {n i : ℕ} (f : ℕ → CQ) (h1 : n - n / 2 ≤ i) (h2 : i < n) :
    wSym n f i = ((f (n - 1 - i) + (f i).conj).div2).conj := by
  have h0 : ¬ i < n / 2 := by omega
  simp [wSym, h0, h1, h2]

theorem wSym_out {n i : ℕ} (f : ℕ → CQ) (h1 : ¬ i < n / 2)
    (h2 : ¬ (n - n / 2 ≤ i ∧ i < n)) : wSym n f i = f i := by
  simp only [wSym]
  rw [if_neg h1, if_neg h2]

/-- For `i < n/2` the mirror slot holds the conjugate of slot `i`. -/
theorem wSym_mirror {n i : ℕ} (f : ℕ → CQ) (h : i < n / 2) :
    wSym n f (n - 1 - i) = (wSym n f i).conj := by
  have h1 : n - n / 2 ≤ n - 1 - i := by omega
  have h2 : n - 1 - i < n := by omega
  rw [wSym_hi f h1 h2, wSym_lo f h]
  have : n - 1 - (n - 1 - i) = i := by omega
  rw [this]

/-- Applying the time pass twice gives the same function as applying it once
(exactly, over `ℚ`). -/
theorem timeSym_idem (n : ℕ) (f : ℕ → ℚ) (i : ℕ) :
    timeSym n (timeSym n f) i = timeSym n f i := by
  by_cases h1 : i < n / 2
  · rw [timeSym_lo _ h1, timeSym_lo f h1,
      timeSym_hi f (n := n) (i := i + n / 2) (by omega) (by omega),
      Nat.add_sub_cancel]
    ring
  · by_cases h2 : i < n / 2 + n / 2
    · have hid : i - n / 2 + n / 2 = i := by omega
      rw [timeSym_hi _ (by omega) h2, timeSym_hi f (by omega) h2,
        timeSym_lo f (show i - n / 2 < n / 2 by omega), hid]
      ring
    · rw [timeSym_out _ h1 h2, timeSym_out f h1 h2]

/-- Applying the frequency pass twice gives the same function as once. -/
theorem wSym_idem (n : ℕ) (f : ℕ → CQ) (i : ℕ) :
    wSym n (wSym n f) i = wSym n f i := by
  by_cases h1 : i < n / 2
  · rw [wSym_lo _ h1, wSym_mirror f h1, CQ.conj_conj, CQ.add_self_div2]
  · by_cases h2 : n - n / 2 ≤ i ∧ i < n
    · have hj : n - 1 - i < n / 2 := by omega
      have hid : n - 1 - (n - 1 - i) = i := by omega
      have hmir := wSym_mirror f hj
      rw [hid] at hmir
      rw [wSym_hi _ h2.1 h2.2, hmir, CQ.conj_conj, CQ.add_self_div2]
    · rw [wSym_out _ h1 h2, wSym_out f h1 h2]

theorem timeSymBB_lo {nB n b0 b1 i : ℕ} (f : ℕ → ℕ → ℕ → ℚ) (hb0 : b0 < nB)
    (hb1 : b1 < nB) (hn : i < n) (h : i < n / 2) :
    timeSymBB nB n f b0 b1 i = (f b0 b1 i - f b1 b0 (i + n / 2)) / 2 := by
  simp [timeSymBB, hb0, hb1, hn, h]

theorem timeSymBB_mid {nB n b0 b1 i : ℕ} (f : ℕ → ℕ → ℕ → ℚ) (hb0 : b0 < nB)
    (hb1 : b1 < nB) (hn : i < n) (h1 : n / 2 ≤ i) (h2 : i < n / 2 + n / 2) :
    timeSymBB nB n f b0 b1 i = -((f b1 b0 (i - n / 2) - f b0 b1 i) / 2) := by
  have h0 : ¬ i < n / 2 := by omega
  simp [timeSymBB, hb0, hb1, hn, h0, h2]

theorem timeSymBB_zero {nB n b0 b1 i : ℕ} (f : ℕ → ℕ → ℕ → ℚ) (hb0 : b0 < nB)
    (hb1 : b1 < nB) (hn : i < n) (h : n / 2 + n / 2 ≤ i) :
    timeSymBB nB n f b0 b1 i = 0 := by
  have h0 : ¬ i < n / 2 := by omega
  have h2 : ¬ i < n / 2 + n / 2 := by omega
  simp [timeSymBB, hb0, hb1, hn, h0, h2]

theorem timeSymBB_out {nB n b0 b1 i : ℕ} (f : ℕ → ℕ → ℕ → ℚ)
    (h : ¬ (b0 < nB ∧ b1 < nB ∧ i < n)) : timeSymBB nB n f b0 b1 i = f b0 b1 i := by
  simp only [timeSymBB]
  rw [if_neg h]

/-- Applying the band-pair time pass twice gives the same function as once. -/
theorem timeSymBB_idem (nB n : ℕ) (f : ℕ → ℕ → ℕ → ℚ) (b0 b1 i : ℕ) :
    timeSymBB nB n (timeSymBB nB n f) b0 b1 i = timeSymBB nB n f b0 b1 i := by
  by_cases hin : b0 < nB ∧ b1 < nB ∧ i < n
  · obtain ⟨hb0, hb1, hn⟩ := hin
    by_cases h1 : i < n / 2
    · rw [timeSymBB_lo _ hb0 hb1 hn h1, timeSymBB_lo f hb0 hb1 hn h1,
        timeSymBB_mid f hb1 hb0 (by omega) (by omega) (by omega),
        Nat.add_sub_cancel]
      ring
    · by_cases h2 : i < n / 2 + n / 2
      · have hid : i - n / 2 + n / 2 = i := by omega
        rw [timeSymBB_mid _ hb0 hb1 hn (by omega) h2,
          timeSymBB_mid f hb0 hb1 hn (by omega) h2,
          timeSymBB_lo f hb1 hb0 (by omega) (by omega), hid]
        ring
      · rw [timeSymBB_zero _ hb0 hb1 hn (by omega),
          timeSymBB_zero f hb0 hb1 hn (by omega)]
  · rw [timeSymBB_out _ hin, timeSymBB_out f hin]

theorem wSymBB_lo {nB n b0 b1 i : ℕ} (f : ℕ → ℕ → ℕ → CQ) (hb0 : b0 < nB)
    (hb1 : b1 < nB) (hn : i < n) (h : i < n / 2) :
    wSymBB nB n f b0 b1 i = (f b0 b1 i + (f b1 b0 (n - 1 - i)).conj).div2 := by
  simp [wSymBB, hb0, hb1, hn, h]

theorem wSymBB_hi {nB n b0 b1 i : ℕ} (f : ℕ → ℕ → ℕ → CQ) (hb0 : b0 < nB)
    (hb1 : b1 < nB) (hn : i < n) (h : n - n / 2 ≤ i) :
    wSymBB nB n f b0 b1 i = ((f b1 b0 (n - 1 - i) + (f b0 b1 i).conj).div2).conj := by
  have h0 : ¬ i < n / 2 := by omega
  simp [wSymBB, hb0, hb1, hn, h0, h]

theorem wSymBB_zero {nB n b0 b1 i : ℕ} (f : ℕ → ℕ → ℕ → CQ) (hb0 : b0 < nB)
    (hb1 : b1 < nB) (hn : i < n) (h1 : ¬ i < n / 2) (h2 : ¬ n - n / 2 ≤ i) :
    wSymBB nB n f b0 b1 i = 0 := by
  simp [wSymBB, hb0, hb1, hn, h1, h2]

theorem wSymBB_out {nB n b0 b1 i : ℕ} (f : ℕ → ℕ → ℕ → CQ)
    (h : ¬ (b0 < nB ∧ b1 < nB ∧ i < n)) : wSymBB nB n f b0 b1 i = f b0 b1 i := by
  simp only [wSymBB]
  rw [if_neg h]

/-- Band-pair frequency mirror: the `(b1, b0, Nω−1−i)` slot is the conjugate
of the `(b0, b1, i)` slot. -/
theorem wSymBB_mirror {nB n b0 b1 i : ℕ} (f : ℕ → ℕ → ℕ → CQ) (hb0 : b0 < nB)
    (hb1 : b1 < nB) (h : i < n / 2) :
    wSymBB nB n f b1 b0 (n - 1 - i) = (wSymBB nB n f b0 b1 i).conj := by
  have hid : n - 1 - (n - 1 - i) = i := by omega
  rw [wSymBB_hi f hb1 hb0 (by omega) (by omega), wSymBB_lo f hb0 hb1 (by omega) h, hid]

/-- Applying the band-pair frequency pass twice gives the same function as once. -/
theorem wSymBB_idem (nB n : ℕ) (f : ℕ → ℕ → ℕ → CQ) (b0 b1 i : ℕ) :
    wSymBB nB n (wSymBB nB n f) b0 b1 i = wSymBB nB n f b0 b1 i := by
  by_cases hin : b0 < nB ∧ b1 < nB ∧ i < n
  · obtain ⟨hb0, hb1, hn⟩ := hin
    by_cases h1 : i < n / 2
    · rw [wSymBB_lo _ hb0 hb1 hn h1, wSymBB_mirror f hb0 hb1 h1, CQ.conj_conj,
        CQ.add_self_div2]
    · by_cases h2 : n - n / 2 ≤ i
      · have hj : n - 1 - i < n / 2 := by omega
        have hid : n - 1 - (n - 1 - i) = i := by omega
        have hmir := wSymBB_mirror f hb1 hb0 hj
        rw [hid] at hmir
        rw [wSymBB_hi _ hb0 hb1 hn h2, hmir, CQ.conj_conj, CQ.add_self_div2]
      · rw [wSymBB_zero _ hb0 hb1 hn h1 h2, wSymBB_zero f hb0 hb1 hn h1 h2]
  · rw [wSymBB_out _ hin, wSymBB_out f hin]

theorem spinSym_diag {nB n0 n1 i s1 j s2 x0 x1 : ℕ} (f : ℕ → ℕ → ℕ → ℕ → ℕ → ℕ → ℚ)
    (hi : i < nB) (hj : j < nB) (hs1 : s1 < 2) (hs2 : s2 < 2) (hx0 : x0 < n0)
    (hx1 : x1 < n1) (hd : s1 = s2) :
    spinSym nB n0 n1 f i s1 j s2 x0 x1 = (f i 0 j 0 x0 x1 + f i 1 j 1 x0 x1) / 2 := by
  simp [spinSym, hi, hj, hs1, hs2, hx0, hx1, hd]

theorem spinSym_off {nB n0 n1 i s1 j s2 x0 x1 : ℕ} (f : ℕ → ℕ → ℕ → ℕ → ℕ → ℕ → ℚ)
    (hi : i < nB) (hj : j < nB) (hs1 : s1 < 2) (hs2 : s2 < 2) (hx0 : x0 < n0)
    (hx1 : x1 < n1) (hd : s1 ≠ s2) :
    spinSym nB n0 n1 f i s1 j s2 x0 x1 = 0 := by
  simp [spinSym, hi, hj, hs1, hs2, hx0, hx1, hd]

theorem spinSym_out {nB n0 n1 i s1 j s2 x0 x1 : ℕ} (f : ℕ → ℕ → ℕ → ℕ → ℕ → ℕ → ℚ)
    (h : ¬ (i < nB ∧ j < nB ∧ s1 < 2 ∧ s2 < 2 ∧ x0 < n0 ∧ x1 < n1)) :
    spinSym nB n0 n1 f i s1 j s2 x0 x1 = f i s1 j s2 x0 x1 := by
  simp only [spinSym]
  rw [if_neg h]

/-- Applying the spin pass twice gives the same function as once. -/
theorem spinSym_idem (nB n0 n1 : ℕ) (f : ℕ → ℕ → ℕ → ℕ → ℕ → ℕ → ℚ)
    (i s1 j s2 x0 x1 : ℕ) :
    spinSym nB n0 n1 (spinSym nB n0 n1 f) i s1 j s2 x0 x1
      = spinSym nB n0 n1 f i s1 j s2 x0 x1 := by
  by_cases hin : i < nB ∧ j < nB ∧ s1 < 2 ∧ s2 < 2 ∧ x0 < n0 ∧ x1 < n1
  · obtain ⟨hi, hj, hs1, hs2, hx0, hx1⟩ := hin
    by_cases hd : s1 = s2
    · rw [spinSym_diag _ hi hj hs1 hs2 hx0 hx1 hd,
        spinSym_diag f hi hj (by omega) (by omega) hx0 hx1 rfl,
        spinSym_diag f hi hj (by omega) (by omega) hx0 hx1 rfl,
        spinSym_diag f hi hj hs1 hs2 hx0 hx1 hd]
      exact add_self_div_two _
    · rw [spinSym_off _ hi hj hs1 hs2 hx0 hx1 hd, spinSym_off f hi hj hs1 hs2 hx0 hx1 hd]
  · rw [spinSym_out _ hin, spinSym_out f hin]


theorem clusterSym_in {nR nG r : ℕ} {sym : ℕ → ℕ → ℕ → ℕ × ℕ} (f : ℕ → ℚ)
    (hr : r < nR) :
    clusterSym nR nG sym f r = (∑ S ∈ Finset.range nG, f (sym r 0 S).1) / (nG : ℚ) := by
  simp [clusterSym, hr]

theorem clusterSym_out {nR nG r : ℕ} {sym : ℕ → ℕ → ℕ → ℕ × ℕ} (f : ℕ → ℚ)
    (hr : ¬ r < nR) : clusterSym nR nG sym f r = f r := by
  simp [clusterSym, hr]

/-- When the position part of the symmetry table is closed under composition
(i.e. it is a genuine group action, as the precomputed
`cluster_symmetry::get_symmetry_matrix` table provides), the scalar cluster
average is a projection: applying it twice equals applying it once. -/
theorem clusterSym_idem (nR nG : ℕ) (sym : ℕ → ℕ → ℕ → ℕ × ℕ) (hG : 0 < nG)
    (hrange : ∀ r S, r < nR → S < nG → (sym r 0 S).1 < nR)
    (hgrp : ∀ S, S < nG → ∃ π : Equiv.Perm (Fin nG), ∀ r, r < nR →
      ∀ T : Fin nG, (sym (sym r 0 S).1 0 T.val).1 = (sym r 0 (π T).val).1)
    (f : ℕ → ℚ) (r : ℕ) :
    clusterSym nR nG sym (clusterSym nR nG sym f) r = clusterSym nR nG sym f r := by
  by_cases hr : r < nR
  · have key : ∀ S ∈ Finset.range nG,
        clusterSym nR nG sym f (sym r 0 S).1 = clusterSym nR nG sym f r := by
      intro S hS
      rw [Finset.mem_range] at hS
      obtain ⟨π, hπ⟩ := hgrp S hS
      rw [clusterSym_in f (hrange r S hr hS), clusterSym_in f hr]
      congr 1
      rw [← Fin.sum_univ_eq_sum_range, ← Fin.sum_univ_eq_sum_range]
      calc ∑ T : Fin nG, f (sym (sym r 0 S).1 0 T.val).1
          = ∑ T : Fin nG, f (sym r 0 (π T).val).1 :=
            Finset.sum_congr rfl fun T _ => by rw [hπ r hr T]
        _ = ∑ U : Fin nG, f (sym r 0 U.val).1 :=
            Equiv.sum_comp π (fun U => f (sym r 0 U.val).1)
    rw [clusterSym_in _ hr, Finset.sum_congr rfl key, Finset.sum_const,
      Finset.card_range, nsmul_eq_mul,
      mul_div_cancel_left₀ _ (show (nG : ℚ) ≠ 0 from Nat.cast_ne_zero.mpr hG.ne')]
  · rw [clusterSym_out _ hr]

theorem clusterSymBBr_in {nB nR nG b0 b1 r : ℕ} {sym : ℕ → ℕ → ℕ → ℕ × ℕ}
    (f : ℕ → ℕ → ℕ → ℚ) (hb0 : b0 < nB) (hb1 : b1 < nB) (hr : r < nR) :
    clusterSymBBr nB nR nG sym f b0 b1 r
      = (∑ S ∈ Finset.range nG, f (sym 0 b0 S).2 (sym r b1 S).2 (sym r 0 S).1) / (nG : ℚ) := by
  simp [clusterSymBBr, hb0, hb1, hr]

theorem clusterSymBBr_out {nB nR nG b0 b1 r : ℕ} {sym : ℕ → ℕ → ℕ → ℕ × ℕ}
    (f : ℕ → ℕ → ℕ → ℚ) (h : ¬ (b0 < nB ∧ b1 < nB ∧ r < nR)) :
    clusterSymBBr nB nR nG sym f b0 b1 r = f b0 b1 r := by
  simp only [clusterSymBBr]
  rw [if_neg h]

theorem clusterSymBBk_in {nB nK nG b0 b1 k : ℕ} {sym : ℕ → ℕ → ℕ → ℕ × ℕ}
    (f : ℕ → ℕ → ℕ → ℚ) (hb0 : b0 < nB) (hb1 : b1 < nB) (hk : k < nK) :
    clusterSymBBk nB nK nG sym f b0 b1 k
      = (∑ S ∈ Finset.range nG, f (sym 0 b0 S).2 (sym k b1 S).2 (sym k b0 S).1) / (nG : ℚ) := by
  simp [clusterSymBBk, hb0, hb1, hk]

theorem clusterSymBBk_out {nB nK nG b0 b1 k : ℕ} {sym : ℕ → ℕ → ℕ → ℕ × ℕ}
    (f : ℕ → ℕ → ℕ → ℚ) (h : ¬ (b0 < nB ∧ b1 < nB ∧ k < nK)) :
    clusterSymBBk nB nK nG sym f b0 b1 k = f b0 b1 k := by
  simp only [clusterSymBBk]
  rw [if_neg h]

theorem bandClusterAvg_in {nB nR nG b0 b1 r : ℕ} {σS βS : ℕ → ℕ → ℕ}
    (f : ℕ → ℕ → ℕ → ℚ) (hb0 : b0 < nB) (hb1 : b1 < nB) (hr : r < nR) :
    bandClusterAvg nB nR nG σS βS f b0 b1 r
      = (∑ S ∈ Finset.range nG, f (βS S b0) (βS S b1) (σS S r)) / (nG : ℚ) := by
  simp [bandClusterAvg, hb0, hb1, hr]

theorem bandClusterAvg_out {nB nR nG b0 b1 r : ℕ} {σS βS : ℕ → ℕ → ℕ}
    (f : ℕ → ℕ → ℕ → ℚ) (h : ¬ (b0 < nB ∧ b1 < nB ∧ r < nR)) :
    bandClusterAvg nB nR nG σS βS f b0 b1 r = f b0 b1 r := by
  simp only [bandClusterAvg]
  rw [if_neg h]

/-- The factored band-pair cluster average is a projection when the position
and band actions are closed under composition via a common permutation of the
group elements. -/
theorem bandClusterAvg_idem (nB nR nG : ℕ) (σS βS : ℕ → ℕ → ℕ) (hG : 0 < nG)
    (hσ : ∀ S r, S < nG → r < nR → σS S r < nR)
    (hβ : ∀ S b, S < nG → b < nB → βS S b < nB)
    (hgrp : ∀ S, S < nG → ∃ π : Equiv.Perm (Fin nG), ∀ T : Fin nG,
      (∀ r, σS T.val (σS S r) = σS (π T).val r) ∧ (∀ b, βS T.val (βS S b) = βS (π T).val b))
    (f : ℕ → ℕ → ℕ → ℚ) (b0 b1 r : ℕ) :
    bandClusterAvg nB nR nG σS βS (bandClusterAvg nB nR nG σS βS f) b0 b1 r
      = bandClusterAvg nB nR nG σS βS f b0 b1 r := by
  by_cases hin : b0 < nB ∧ b1 < nB ∧ r < nR
  · obtain ⟨hb0, hb1, hr⟩ := hin
    have key : ∀ S ∈ Finset.range nG,
        bandClusterAvg nB nR nG σS βS f (βS S b0) (βS S b1) (σS S r)
          = bandClusterAvg nB nR nG σS βS f b0 b1 r := by
      intro S hS
      rw [Finset.mem_range] at hS
      obtain ⟨π, hπ⟩ := hgrp S hS
      rw [bandClusterAvg_in f (hβ S b0 hS hb0) (hβ S b1 hS hb1) (hσ S r hS hr),
        bandClusterAvg_in f hb0 hb1 hr]
      congr 1
      rw [← Fin.sum_univ_eq_sum_range, ← Fin.sum_univ_eq_sum_range]
      calc ∑ T : Fin nG, f (βS T.val (βS S b0)) (βS T.val (βS S b1)) (σS T.val (σS S r))
          = ∑ T : Fin nG, f (βS (π T).val b0) (βS (π T).val b1) (σS (π T).val r) :=
            Finset.sum_congr rfl fun T _ => by rw [(hπ T).2 b0, (hπ T).2 b1, (hπ T).1 r]
        _ = ∑ U : Fin nG, f (βS U.val b0) (βS U.val b1) (σS U.val r) :=
            Equiv.sum_comp π (fun U => f (βS U.val b0) (βS U.val b1) (σS U.val r))
    rw [bandClusterAvg_in _ hb0 hb1 hr, Finset.sum_congr rfl key, Finset.sum_const,
      Finset.card_range, nsmul_eq_mul,
      mul_div_cancel_left₀ _ (show (nG : ℚ) ≠ 0 from Nat.cast_ne_zero.mpr hG.ne')]
  · rw [bandClusterAvg_out _ hin]

/-- When the symmetry table factors into independent position and band
actions, the real-space band-pair overload coincides with the factored
average. -/
theorem clusterSymBBr_eq_avg (nB nR nG : ℕ) (sym : ℕ → ℕ → ℕ → ℕ × ℕ)
    (σS βS : ℕ → ℕ → ℕ) (hfac : ∀ r b S, S < nG → sym r b S = (σS S r, βS S b))
    (f : ℕ → ℕ → ℕ → ℚ) :
    clusterSymBBr nB nR nG sym f = bandClusterAvg nB nR nG σS βS f := by
  funext b0 b1 r
  by_cases hin : b0 < nB ∧ b1 < nB ∧ r < nR
  · obtain ⟨hb0, hb1, hr⟩ := hin
    rw [clusterSymBBr_in f hb0 hb1 hr, bandClusterAvg_in f hb0 hb1 hr]
    congr 1
    refine Finset.sum_congr rfl fun S hS => ?_
    rw [Finset.mem_range] at hS
    rw [hfac 0 b0 S hS, hfac r b1 S hS, hfac r 0 S hS]
  · rw [clusterSymBBr_out f hin, bandClusterAvg_out f hin]

/-- The momentum-space band-pair overload — including its `K_new_ind` lookup
at band `b0` (the source's `FIXME` line) — also coincides with the factored
average, because under a factored table the position image is independent of
the band argument. -/
theorem clusterSymBBk_eq_avg (nB nK nG : ℕ) (sym : ℕ → ℕ → ℕ → ℕ × ℕ)
    (σS βS : ℕ → ℕ → ℕ) (hfac : ∀ k b S, S < nG → sym k b S = (σS S k, βS S b))
    (f : ℕ → ℕ → ℕ → ℚ) :
    clusterSymBBk nB nK nG sym f = bandClusterAvg nB nK nG σS βS f := by
  funext b0 b1 k
  by_cases hin : b0 < nB ∧ b1 < nB ∧ k < nK
  · obtain ⟨hb0, hb1, hk⟩ := hin
    rw [clusterSymBBk_in f hb0 hb1 hk, bandClusterAvg_in f hb0 hb1 hk]
    congr 1
    refine Finset.sum_congr rfl fun S hS => ?_
    rw [Finset.mem_range] at hS
    rw [hfac 0 b0 S hS, hfac k b1 S hS, hfac k b0 S hS]
  · rw [clusterSymBBk_out f hin, bandClusterAvg_out f hin]

/-- Real-space band-pair cluster pass is idempotent for factored group
actions. -/
theorem clusterSymBBr_idem (nB nR nG : ℕ) (sym : ℕ → ℕ → ℕ → ℕ × ℕ)
    (σS βS : ℕ → ℕ → ℕ) (hG : 0 < nG)
    (hfac : ∀ r b S, S < nG → sym r b S = (σS S r, βS S b))
    (hσ : ∀ S r, S < nG → r < nR → σS S r < nR)
    (hβ : ∀ S b, S < nG → b < nB → βS S b < nB)
    (hgrp : ∀ S, S < nG → ∃ π : Equiv.Perm (Fin nG), ∀ T : Fin nG,
      (∀ r, σS T.val (σS S r) = σS (π T).val r) ∧ (∀ b, βS T.val (βS S b) = βS (π T).val b))
    (f : ℕ → ℕ → ℕ → ℚ) (b0 b1 r : ℕ) :
    clusterSymBBr nB nR nG sym (clusterSymBBr nB nR nG sym f) b0 b1 r
      = clusterSymBBr nB nR nG sym f b0 b1 r := by
  rw [clusterSymBBr_eq_avg nB nR nG sym σS βS hfac f,
    clusterSymBBr_eq_avg nB nR nG sym σS βS hfac (bandClusterAvg nB nR nG σS βS f)]
  exact bandClusterAvg_idem nB nR nG σS βS hG hσ hβ hgrp f b0 b1 r

/-- Momentum-space band-pair cluster pass is idempotent for factored group
actions. -/
theorem clusterSymBBk_idem (nB nK nG : ℕ) (sym : ℕ → ℕ → ℕ → ℕ × ℕ)
    (σS βS : ℕ → ℕ → ℕ) (hG : 0 < nG)
    (hfac : ∀ k b S, S < nG → sym k b S = (σS S k, βS S b))
    (hσ : ∀ S k, S < nG → k < nK → σS S k < nK)
    (hβ : ∀ S b, S < nG → b < nB → βS S b < nB)
    (hgrp : ∀ S, S < nG → ∃ π : Equiv.Perm (Fin nG), ∀ T : Fin nG,
      (∀ k, σS T.val (σS S k) = σS (π T).val k) ∧ (∀ b, βS T.val (βS S b) = βS (π T).val b))
    (f : ℕ → ℕ → ℕ → ℚ) (b0 b1 k : ℕ) :
    clusterSymBBk nB nK nG sym (clusterSymBBk nB nK nG sym f) b0 b1 k
      = clusterSymBBk nB nK nG sym f b0 b1 k := by
  rw [clusterSymBBk_eq_avg nB nK nG sym σS βS hfac f,
    clusterSymBBk_eq_avg nB nK nG sym σS βS hfac (bandClusterAvg nB nK nG σS βS f)]
  exact bandClusterAvg_idem nB nK nG σS βS hG hσ hβ hgrp f b0 b1 k

/-- The per-walker workload shares sum to the total. -/
theorem getWorkload_sum (M W : ℕ) (hW : 0 < W) :
    ∑ w ∈ Finset.range W, getWorkload M W w = M := by
  have hm : M % W ≤ W := (Nat.mod_lt M hW).le
  have hf : (Finset.range W).filter (fun w => w < M % W) = Finset.range (M % W) := by
    ext w
    simp only [Finset.mem_filter, Finset.mem_range]
    omega
  calc ∑ w ∈ Finset.range W, getWorkload M W w
      = W * (M / W) + ∑ w ∈ Finset.range W, (if w < M % W then 1 else 0) := by
        simp only [getWorkload]
        rw [Finset.sum_add_distrib, Finset.sum_const, Finset.card_range, smul_eq_mul]
    _ = W * (M / W) + M % W := by
        rw [← Finset.sum_filter, hf, Finset.sum_const, Finset.card_range, smul_eq_mul,
          mul_one]
    _ = M := Nat.div_add_mod M W

theorem sum_update_aux (F : ℕ → ℕ) (n w : ℕ) (hw : w < n) (v : ℕ) :
    ∑ x ∈ Finset.range n, Function.update F w v x + F w
      = ∑ x ∈ Finset.range n, F x + v := by
  rw [Finset.sum_update_of_mem (Finset.mem_range.mpr hw),
    Finset.sum_eq_sum_diff_singleton_add (Finset.mem_range.mpr hw) F]
  ring

theorem sumProduced_update (cfg : MCConfig) (s t : MCState) (w : ℕ) (hw : w < cfg.W)
    (ws' : WalkerSt) (ht : t.walkers = Function.update s.walkers w ws') :
    sumProduced cfg t + (s.walkers w).produced = sumProduced cfg s + ws'.produced := by
  unfold sumProduced
  rw [ht]
  have hcong : ∀ x ∈ Finset.range cfg.W, (Function.update s.walkers w ws' x).produced
      = Function.update (fun y => (s.walkers y).produced) w ws'.produced x := by
    intro x _
    by_cases h : x = w <;> simp [Function.update, h]
  rw [Finset.sum_congr rfl hcong]
  exact sum_update_aux (fun y => (s.walkers y).produced) cfg.W w hw ws'.produced

theorem sumMeasured_update (cfg : MCConfig) (s t : MCState) (a : ℕ) (ha : a < cfg.A)
    (as' : AccSt) (ht : t.accs = Function.update s.accs a as') :
    sumMeasured cfg t + (s.accs a).measured = sumMeasured cfg s + as'.measured := by
  unfold sumMeasured
  rw [ht]
  have hcong : ∀ x ∈ Finset.range cfg.A, (Function.update s.accs a as' x).measured
      = Function.update (fun y => (s.accs y).measured) a as'.measured x := by
    intro x _
    by_cases h : x = a <;> simp [Function.update, h]
  rw [Finset.sum_congr rfl hcong]
  exact sum_update_aux (fun y => (s.accs y).measured) cfg.A a ha as'.measured

theorem sumHasSample_update (cfg : MCConfig) (s t : MCState) (a : ℕ) (ha : a < cfg.A)
    (as' : AccSt) (ht : t.accs = Function.update s.accs a as') :
    sumHasSample cfg t + (if (s.accs a).phase = .hasSample then 1 else 0)
      = sumHasSample cfg s + (if as'.phase = .hasSample then 1 else 0) := by
  unfold sumHasSample
  rw [ht]
  have hcong : ∀ x ∈ Finset.range cfg.A,
      (if (Function.update s.accs a as' x).phase = .hasSample then 1 else 0)
        = Function.update (fun y => if (s.accs y).phase = .hasSample then 1 else 0) a
            (if as'.phase = .hasSample then 1 else 0) x := by
    intro x _
    by_cases h : x = a <;> simp [Function.update, h]
  rw [Finset.sum_congr rfl hcong]
  exact sum_update_aux (fun y => if (s.accs y).phase = .hasSample then 1 else 0)
    cfg.A a ha (if as'.phase = .hasSample then 1 else 0)

theorem sumProduced_congr (cfg : MCConfig) (s t : MCState)
    (h : ∀ w, w < cfg.W → (t.walkers w).produced = (s.walkers w).produced) :
    sumProduced cfg t = sumProduced cfg s :=
  Finset.sum_congr rfl fun w hw => h w (Finset.mem_range.mp hw)

theorem sumMeasured_congr (cfg : MCConfig) (s t : MCState)
    (h : ∀ a, a < cfg.A → (t.accs a).measured = (s.accs a).measured) :
    sumMeasured cfg t = sumMeasured cfg s :=
  Finset.sum_congr rfl fun a ha => h a (Finset.mem_range.mp ha)

theorem sumHasSample_congr (cfg : MCConfig) (s t : MCState)
    (h : ∀ a, a < cfg.A → (if (t.accs a).phase = APhase.hasSample then 1 else 0)
      = (if (s.accs a).phase = APhase.hasSample then (1 : ℕ) else 0)) :
    sumHasSample cfg t = sumHasSample cfg s :=
  Finset.sum_congr rfl fun a ha => h a (Finset.mem_range.mp ha)

/-- The invariant holds initially. -/
theorem inv_init (cfg : MCConfig) : Inv cfg initState := by
  refine ⟨?_, List.nodup_nil, ?_, ?_, ?_⟩
  · intro a ha
    simp [initState] at ha
  · intro w _ a hph
    simp [initState] at hph
  · simp [sumMeasured, sumHasSample, sumProduced, initState]
  · intro _ w _
    refine ⟨fun _ => rfl, fun h => absurd h (by simp [initState]),
      fun a h => absurd h (by simp [initState]), fun h => ?_⟩
    rcases h with h | h <;> exact absurd h (by simp [initState])

theorem count_keep (cfg : MCConfig) (s t : MCState)
    (hP : sumProduced cfg t = sumProduced cfg s)
    (hM : sumMeasured cfg t = sumMeasured cfg s)
    (hH : sumHasSample cfg t = sumHasSample cfg s)
    (hc : sumMeasured cfg s + sumHasSample cfg s = sumProduced cfg s) :
    sumMeasured cfg t + sumHasSample cfg t = sumProduced cfg t := by omega

theorem count_arith (cfg : MCConfig) (s t : MCState) (pw e1 e2 : ℕ)
    (hP : sumProduced cfg t + pw = sumProduced cfg s + (pw + 1))
    (hH : sumHasSample cfg t + e1 = sumHasSample cfg s + e2)
    (he1 : e1 = 0) (he2 : e2 = 1)
    (hM : sumMeasured cfg t = sumMeasured cfg s)
    (hc : sumMeasured cfg s + sumHasSample cfg s = sumProduced cfg s) :
    sumMeasured cfg t + sumHasSample cfg t = sumProduced cfg t := by omega

theorem count_arith2 (cfg : MCConfig) (s t : MCState) (m e1 e2 : ℕ)
    (hM : sumMeasured cfg t + m = sumMeasured cfg s + (m + 1))
    (hH : sumHasSample cfg t + e1 = sumHasSample cfg s + e2)
    (he1 : e1 = 1) (he2 : e2 = 0)
    (hP : sumProduced cfg t = sumProduced cfg s)
    (hc : sumMeasured cfg s + sumHasSample cfg s = sumProduced cfg s) :
    sumMeasured cfg t + sumHasSample cfg t = sumProduced cfg t := by omega

/-- Every interleaved step preserves the run invariant. -/
theorem inv_step {cfg : MCConfig} {s t : MCState} (hinv : Inv cfg s)
    (hstep : Step cfg s t) : Inv cfg t := by
  cases hstep with
  | wEntry w hw hp =>
    refine ⟨?_, ?_, ?_, ?_, ?_⟩ <;> dsimp only
    · exact hinv.qmem
    · exact hinv.qnodup
    · intro w' hw' b hph
      by_cases hww : w' = w
      · subst hww
        rw [Function.update_same] at hph
        exact absurd hph (by simp)
      · rw [Function.update_noteq hww] at hph
        obtain ⟨hbA, hbq, hbnq, hbuniq⟩ := hinv.holder w' hw' b hph
        refine ⟨hbA, hbq, hbnq, fun w'' hw'' hne => ?_⟩
        by_cases hww2 : w'' = w
        · subst hww2
          rw [Function.update_same]
          simp
        · rw [Function.update_noteq hww2]
          exact hbuniq w'' hw'' hne
    · refine count_keep cfg s _ ?_ rfl rfl hinv.count
      apply sumProduced_congr
      intro x hx
      by_cases h : x = w <;> simp [Function.update, h]
    · intro hfix w' hw'
      by_cases hww : w' = w
      · subst hww
        rw [Function.update_same]
        have hold := hinv.fixedInv hfix w' hw'
        refine ⟨fun h => absurd h (by simp), fun _ => ?_,
          fun b h => absurd h (by simp),
          fun h => by rcases h with h | h <;> exact absurd h (by simp)⟩
        constructor
        · show (s.walkers w').produced = (if cfg.fixed then 0 else s.measDone)
          rw [hfix, if_pos rfl]
          exact hold.1 hp
        · show (if cfg.fixed then 0 else s.measDone) ≤ nLocal cfg w'
          rw [hfix, if_pos rfl]
          exact Nat.zero_le _
      · rw [Function.update_noteq hww]
        exact hinv.fixedInv hfix w' hw'
  | wPop w a rest hw hp hlt hq =>
    refine ⟨?_, ?_, ?_, ?_, ?_⟩ <;> dsimp only
    · intro b hb
      exact hinv.qmem b (by rw [hq]; exact List.mem_cons_of_mem a hb)
    · have hnd := hinv.qnodup
      rw [hq] at hnd
      exact hnd.of_cons
    · intro w' hw' b hph
      by_cases hww : w' = w
      · subst hww
        rw [Function.update_same] at hph
        have hab : b = a := by
          have h2 : WPhase.holding a = WPhase.holding b := hph
          injection h2 with h3
          exact h3.symm
        subst hab
        have hmem : b ∈ s.queue := by rw [hq]; exact List.mem_cons_self b rest
        obtain ⟨hbA, hbq⟩ := hinv.qmem b hmem
        have hnd := hinv.qnodup
        rw [hq] at hnd
        refine ⟨hbA, hbq, (List.nodup_cons.mp hnd).1, ?_⟩
        intro w'' hw'' hne
        by_cases hww2 : w'' = w'
        · exact absurd hww2 hne
        · rw [Function.update_noteq hww2]
          intro hcon
          obtain ⟨_, _, hnq', _⟩ := hinv.holder w'' hw'' b hcon
          exact hnq' hmem
      · rw [Function.update_noteq hww] at hph
        obtain ⟨hbA, hbq, hbnq, hbuniq⟩ := hinv.holder w' hw' b hph
        have hbna : b ≠ a := by
          intro he
          subst he
          exact hbnq (by rw [hq]; exact List.mem_cons_self b rest)
        refine ⟨hbA, hbq, ?_, ?_⟩
        · intro hbr
          exact hbnq (by rw [hq]; exact List.mem_cons_of_mem a hbr)
        · intro w'' hw'' hne
          by_cases hww2 : w'' = w
          · subst hww2
            rw [Function.update_same]
            intro hcon
            have h2 : WPhase.holding a = WPhase.holding b := hcon
            injection h2 with h3
            exact hbna h3.symm
          · rw [Function.update_noteq hww2]
            exact hbuniq w'' hw'' hne
    · refine count_keep cfg s _ ?_ rfl rfl hinv.count
      apply sumProduced_congr
      intro x hx
      by_cases h : x = w <;> simp [Function.update, h]
    · intro hfix w' hw'
      by_cases hww : w' = w
      · subst hww
        rw [Function.update_same]
        have hold := hinv.fixedInv hfix w' hw'
        exact ⟨fun h => absurd h (by simp), fun h => absurd h (by simp),
          fun b _ => ⟨(hold.2.1 hp).1, hlt⟩,
          fun h => by rcases h with h | h <;> exact absurd h (by simp)⟩
      · rw [Function.update_noteq hww]
        exact hinv.fixedInv hfix w' hw'
  | wHandoff w a hw hp =>
    obtain ⟨haA, haq, hanq, hauniq⟩ := hinv.holder w hw a hp
    refine ⟨?_, ?_, ?_, ?_, ?_⟩ <;> dsimp only
    · intro b hb
      obtain ⟨hbA, hbq⟩ := hinv.qmem b hb
      have hba : b ≠ a := fun he => hanq (he ▸ hb)
      rw [Function.update_noteq hba]
      exact ⟨hbA, hbq⟩
    · exact hinv.qnodup
    · intro w' hw' b hph
      by_cases hww : w' = w
      · subst hww
        rw [Function.update_same] at hph
        exact absurd hph (by simp)
      · rw [Function.update_noteq hww] at hph
        obtain ⟨hbA, hbq, hbnq, hbuniq⟩ := hinv.holder w' hw' b hph
        have hba : b ≠ a := fun he => (hauniq w' hw' hww) (he ▸ hph)
        refine ⟨hbA, ?_, hbnq, ?_⟩
        · rw [Function.update_noteq hba]
          exact hbq
        · intro w'' hw'' hne
          by_cases hww2 : w'' = w
          · subst hww2
            rw [Function.update_same]
            simp
          · rw [Function.update_noteq hww2]
            exact hbuniq w'' hw'' hne
    · refine count_arith cfg s _ ((s.walkers w).produced)
        (if (s.accs a).phase = .hasSample then 1 else 0)
        (if (APhase.hasSample : APhase) = .hasSample then 1 else 0)
        (sumProduced_update cfg s _ w hw _ rfl)
        (sumHasSample_update cfg s _ a haA _ rfl)
        (by rw [haq]; simp) (by simp) ?_ hinv.count
      apply sumMeasured_congr
      intro x hx
      by_cases h : x = a <;> simp [Function.update, h]
    · intro hfix w' hw'
      by_cases hww : w' = w
      · subst hww
        rw [Function.update_same]
        have hold := hinv.fixedInv hfix w' hw'
        have h2 := hold.2.2.1 a hp
        refine ⟨fun h => absurd h (by simp), fun _ => ?_,
          fun b h => absurd h (by simp),
          fun h => by rcases h with h | h <;> exact absurd h (by simp)⟩
        constructor
        · show (s.walkers w').produced + 1
            = (if cfg.fixed then (s.walkers w').measId + 1 else s.measDone + 1)
          rw [hfix, if_pos rfl, h2.1]
        · show (if cfg.fixed then (s.walkers w').measId + 1 else s.measDone + 1)
            ≤ nLocal cfg w'
          rw [hfix, if_pos rfl]
          omega
      · rw [Function.update_noteq hww]
        exact hinv.fixedInv hfix w' hw'
  | wIncr w hw hp hge =>
    refine ⟨?_, ?_, ?_, ?_, ?_⟩ <;> dsimp only
    · exact hinv.qmem
    · exact hinv.qnodup
    · intro w' hw' b hph
      by_cases hww : w' = w
      · subst hww
        rw [Function.update_same] at hph
        have h2 : (if s.walkFinished + 1 = cfg.W then WPhase.finishing else .done)
            = WPhase.holding b := hph
        split at h2 <;> simp at h2
      · rw [Function.update_noteq hww] at hph
        obtain ⟨hbA, hbq, hbnq, hbuniq⟩ := hinv.holder w' hw' b hph
        refine ⟨hbA, hbq, hbnq, fun w'' hw'' hne => ?_⟩
        by_cases hww2 : w'' = w
        · subst hww2
          rw [Function.update_same]
          intro hcon
          have h2 : (if s.walkFinished + 1 = cfg.W then WPhase.finishing else .done)
              = WPhase.holding b := hcon
          split at h2 <;> simp at h2
        · rw [Function.update_noteq hww2]
          exact hbuniq w'' hw'' hne
    · refine count_keep cfg s _ ?_ rfl rfl hinv.count
      apply sumProduced_congr
      intro x hx
      by_cases h : x = w <;> simp [Function.update, h]
    · intro hfix w' hw'
      by_cases hww : w' = w
      · subst hww
        rw [Function.update_same]
        have hold := hinv.fixedInv hfix w' hw'
        have h2 := hold.2.1 hp
        refine ⟨fun h => ?_, fun h => ?_, fun b h => ?_, fun _ => ?_⟩
        · have h3 : (if s.walkFinished + 1 = cfg.W then WPhase.finishing else .done)
              = WPhase.entry := h
          split at h3 <;> simp at h3
        · have h3 : (if s.walkFinished + 1 = cfg.W then WPhase.finishing else .done)
              = WPhase.testing := h
          split at h3 <;> simp at h3
        · have h3 : (if s.walkFinished + 1 = cfg.W then WPhase.finishing else .done)
              = WPhase.holding b := h
          split at h3 <;> simp at h3
        · show (s.walkers w').produced = nLocal cfg w'
          omega
      · rw [Function.update_noteq hww]
        exact hinv.fixedInv hfix w' hw'
  | wDrain w hw hp =>
    refine ⟨?_, ?_, ?_, ?_, ?_⟩ <;> dsimp only
    · intro b hb
      simp at hb
    · exact List.nodup_nil
    · intro w' hw' b hph
      by_cases hww : w' = w
      · subst hww
        rw [Function.update_same] at hph
        exact absurd hph (by simp)
      · rw [Function.update_noteq hww] at hph
        obtain ⟨hbA, hbq, hbnq, hbuniq⟩ := hinv.holder w' hw' b hph
        refine ⟨hbA, ?_, by simp, ?_⟩
        · simp only [notifyAll]
          rw [if_neg hbnq]
          exact hbq
        · intro w'' hw'' hne
          by_cases hww2 : w'' = w
          · subst hww2
            rw [Function.update_same]
            simp
          · rw [Function.update_noteq hww2]
            exact hbuniq w'' hw'' hne
    · refine count_keep cfg s _ ?_ ?_ ?_ hinv.count
      · apply sumProduced_congr
        intro x hx
        by_cases h : x = w <;> simp [Function.update, h]
      · apply sumMeasured_congr
        intro x hx
        by_cases h : x ∈ s.queue <;> simp [notifyAll, h]
      · apply sumHasSample_congr
        intro x hx
        by_cases h : x ∈ s.queue
        · have hxq := (hinv.qmem x h).2
          simp [notifyAll, h, hxq]
        · simp [notifyAll, h]
    · intro hfix w' hw'
      by_cases hww : w' = w
      · subst hww
        rw [Function.update_same]
        have hold := hinv.fixedInv hfix w' hw'
        have h2 := hold.2.2.2 (Or.inl hp)
        exact ⟨fun h => absurd h (by simp), fun h => absurd h (by simp),
          fun b h => absurd h (by simp), fun _ => h2⟩
      · rw [Function.update_noteq hww]
        exact hinv.fixedInv hfix w' hw'
  | aCheckExit a ha hp hdone =>
    refine ⟨?_, ?_, ?_, ?_, ?_⟩ <;> dsimp only
    · intro b hb
      obtain ⟨hbA, hbq⟩ := hinv.qmem b hb
      have hba : b ≠ a := by
        intro he
        rw [he, hp] at hbq
        exact absurd hbq (by simp)
      rw [Function.update_noteq hba]
      exact ⟨hbA, hbq⟩
    · exact hinv.qnodup
    · intro w' hw' b hph
      obtain ⟨hbA, hbq, hbnq, hbuniq⟩ := hinv.holder w' hw' b hph
      have hba : b ≠ a := by
        intro he
        rw [he, hp] at hbq
        exact absurd hbq (by simp)
      rw [Function.update_noteq hba]
      exact ⟨hbA, hbq, hbnq, hbuniq⟩
    · refine count_keep cfg s _ rfl ?_ ?_ hinv.count
      · apply sumMeasured_congr
        intro x hx
        by_cases h : x = a <;> simp [Function.update, h]
      · apply sumHasSample_congr
        intro x hx
        by_cases h : x = a
        · subst h
          simp [Function.update, hp]
        · simp [Function.update, h]
    · intro hfix w' hw'
      exact hinv.fixedInv hfix w' hw'
  | aCheckPush a ha hp hrun =>
    have hna : a ∉ s.queue := by
      intro hmem
      have := (hinv.qmem a hmem).2
      rw [hp] at this
      exact absurd this (by simp)
    refine ⟨?_, ?_, ?_, ?_, ?_⟩ <;> dsimp only
    · intro b hb
      rcases List.mem_cons.mp hb with he | hm
      · subst he
        rw [Function.update_same]
        exact ⟨ha, rfl⟩
      · obtain ⟨hbA, hbq⟩ := hinv.qmem b hm
        have hba : b ≠ a := by
          intro he
          rw [he, hp] at hbq
          exact absurd hbq (by simp)
        rw [Function.update_noteq hba]
        exact ⟨hbA, hbq⟩
    · exact List.nodup_cons.mpr ⟨hna, hinv.qnodup⟩
    · intro w' hw' b hph
      obtain ⟨hbA, hbq, hbnq, hbuniq⟩ := hinv.holder w' hw' b hph
      have hba : b ≠ a := by
        intro he
        rw [he, hp] at hbq
        exact absurd hbq (by simp)
      refine ⟨hbA, ?_, ?_, hbuniq⟩
      · rw [Function.update_noteq hba]
        exact hbq
      · intro hmem
        rcases List.mem_cons.mp hmem with he | hm
        · exact hba he
        · exact hbnq hm
    · refine count_keep cfg s _ rfl ?_ ?_ hinv.count
      · apply sumMeasured_congr
        intro x hx
        by_cases h : x = a <;> simp [Function.update, h]
      · apply sumHasSample_congr
        intro x hx
        by_cases h : x = a
        · subst h
          simp [Function.update, hp]
        · simp [Function.update, h]
    · intro hfix w' hw'
      exact hinv.fixedInv hfix w' hw'
  | aMeasure a ha hp =>
    refine ⟨?_, ?_, ?_, ?_, ?_⟩ <;> dsimp only
    · intro b hb
      obtain ⟨hbA, hbq⟩ := hinv.qmem b hb
      have hba : b ≠ a := by
        intro he
        rw [he, hp] at hbq
        exact absurd hbq (by simp)
      rw [Function.update_noteq hba]
      exact ⟨hbA, hbq⟩
    · exact hinv.qnodup
    · intro w' hw' b hph
      obtain ⟨hbA, hbq, hbnq, hbuniq⟩ := hinv.holder w' hw' b hph
      have hba : b ≠ a := by
        intro he
        rw [he, hp] at hbq
        exact absurd hbq (by simp)
      rw [Function.update_noteq hba]
      exact ⟨hbA, hbq, hbnq, hbuniq⟩
    · refine count_arith2 cfg s _ ((s.accs a).measured)
        (if (s.accs a).phase = .hasSample then 1 else 0)
        (if (APhase.checking : APhase) = .hasSample then 1 else 0)
        (sumMeasured_update cfg s _ a ha _ rfl)
        (sumHasSample_update cfg s _ a ha _ rfl)
        (by rw [hp]; simp) (by simp) rfl hinv.count
    · intro hfix w' hw'
      exact hinv.fixedInv hfix w' hw'
  | aExitNotified a ha hp =>
    refine ⟨?_, ?_, ?_, ?_, ?_⟩ <;> dsimp only
    · intro b hb
      obtain ⟨hbA, hbq⟩ := hinv.qmem b hb
      have hba : b ≠ a := by
        intro he
        rw [he, hp] at hbq
        exact absurd hbq (by simp)
      rw [Function.update_noteq hba]
      exact ⟨hbA, hbq⟩
    · exact hinv.qnodup
    · intro w' hw' b hph
      obtain ⟨hbA, hbq, hbnq, hbuniq⟩ := hinv.holder w' hw' b hph
      have hba : b ≠ a := by
        intro he
        rw [he, hp] at hbq
        exact absurd hbq (by simp)
      rw [Function.update_noteq hba]
      exact ⟨hbA, hbq, hbnq, hbuniq⟩
    · refine count_keep cfg s _ rfl ?_ ?_ hinv.count
      · apply sumMeasured_congr
        intro x hx
        by_cases h : x = a <;> simp [Function.update, h]
      · apply sumHasSample_congr
        intro x hx
        by_cases h : x = a
        · subst h
          simp [Function.update, hp]
        · simp [Function.update, h]
    · intro hfix w' hw'
      exact hinv.fixedInv hfix w' hw'

/-- The invariant holds in every reachable state. -/
theorem inv_reachable {cfg : MCConfig} {s : MCState} (h : Reachable cfg s) :
    Inv cfg s := by
  induction h with
  | refl => exact inv_init cfg
  | tail _ hstep ih => exact inv_step ih hstep

/-- In a completed run no accumulator still holds an unmeasured sample. -/
theorem sumHasSample_terminal (cfg : MCConfig) (s : MCState)
    (ht : Terminal cfg s) : sumHasSample cfg s = 0 := by
  refine Finset.sum_eq_zero fun a ha => ?_
  rw [ht.2 a (Finset.mem_range.mp ha)]
  simp

/-- In a completed fixed-mode run every walker produced its exact share. -/
theorem sumProduced_terminal_fixed (cfg : MCConfig) (s : MCState) (hW : 0 < cfg.W)
    (hinv : Inv cfg s) (ht : Terminal cfg s) (hfix : cfg.fixed = true) :
    sumProduced cfg s = cfg.M := by
  have hall : ∀ w, w < cfg.W → (s.walkers w).produced = nLocal cfg w := fun w hw =>
    (hinv.fixedInv hfix w hw).2.2.2 (Or.inr (ht.1 w hw))
  calc sumProduced cfg s
      = ∑ w ∈ Finset.range cfg.W, nLocal cfg w :=
        Finset.sum_congr rfl fun w hw => hall w (Finset.mem_range.mp hw)
    _ = ∑ w ∈ Finset.range cfg.W, getWorkload cfg.M cfg.W w :=
        Finset.sum_congr rfl fun w _ => by rw [nLocal, hfix, if_pos rfl]
    _ = cfg.M := getWorkload_sum cfg.M cfg.W hW

/-- A complete interleaving of the shared-counter configuration `cfgCex`
(`W = 2`, `A = 1`, `M = 1`, fixed off) in which both walkers load
`measurements_done_ = 0` before either increments it, so each performs a
measurement: the run terminates with 2 samples produced and 2 measured,
although `M_local = 1`. -/
theorem cexRun : ∃ s : MCState, Reachable cfgCex s ∧ Terminal cfgCex s ∧
    sumProduced cfgCex s = 2 ∧ sumMeasured cfgCex s = 2 := by
  have h : Reachable cfgCex _ :=
    Relation.ReflTransGen.head
      (Step.aCheckPush initState 0 (by decide) rfl (by decide))
      (Relation.ReflTransGen.head (Step.wEntry _ 0 (by decide) (by decide))
      (Relation.ReflTransGen.head (Step.wEntry _ 1 (by decide) (by decide))
      (Relation.ReflTransGen.head
        (Step.wPop _ 0 0 [] (by decide) (by decide) (by decide) (by decide))
      (Relation.ReflTransGen.head (Step.wHandoff _ 0 0 (by decide) (by decide))
      (Relation.ReflTransGen.head (Step.aMeasure _ 0 (by decide) (by decide))
      (Relation.ReflTransGen.head
        (Step.aCheckPush _ 0 (by decide) (by decide) (by decide))
      (Relation.ReflTransGen.head
        (Step.wIncr _ 0 (by decide) (by decide) (by decide))
      (Relation.ReflTransGen.head
        (Step.wPop _ 1 0 [] (by decide) (by decide) (by decide) (by decide))
      (Relation.ReflTransGen.head (Step.wHandoff _ 1 0 (by decide) (by decide))
      (Relation.ReflTransGen.head (Step.aMeasure _ 0 (by decide) (by decide))
      (Relation.ReflTransGen.head
        (Step.wIncr _ 1 (by decide) (by decide) (by decide))
      (Relation.ReflTransGen.head (Step.wDrain _ 1 (by decide) (by decide))
      (Relation.ReflTransGen.head
        (Step.aCheckExit _ 0 (by decide) (by decide) (by decide))
      Relation.ReflTransGen.refl)))))))))))))
  exact ⟨_, h,
    ⟨fun w hw => by
      have hw2 : w < 2 := hw
      interval_cases w <;> rfl,
     fun a ha => by
      have ha2 : a < 1 := ha
      interval_cases a
      rfl⟩,
    by decide, by decide⟩

end DCA

/-- **C7.** For every matrix view and valid `(i, j)`, element access yields
`base[i + j·ld]` (column-major), and accessing `(i, j)` through a view taken
with offsets `(oi, oj)` (and sub-shape `(ni, nj)`, as in the five-argument
constructor) yields the parent's element `(i + oi, j + oj)`. -/
theorem C7_view_addressing {α : Type*} (m : DCA.MatrixView α) :
    (∀ i j : ℕ, i < m.rows → j < m.cols → m.elem i j = m.base (i + j * m.ld)) ∧
    (∀ oi oj ni nj i j : ℕ, oi + ni ≤ m.rows → oj + nj ≤ m.cols →
      i < ni → j < nj → (m.sub oi oj ni nj).elem i j = m.elem (i + oi) (j + oj)) := by
  constructor
  · intro i j _ _
    rfl
  · intro oi oj ni nj i j _ _ _ _
    show m.base (m.ld * oj + oi + (i + j * m.ld)) = m.base ((i + oi) + (j + oj) * m.ld)
    ring_nf

/-- Witness for `C7_view_addressing` at the concrete 2×3 view `mvExample`. -/
theorem C7_view_addressing_witness :
    DCA.mvExample.elem 1 2 = DCA.mvExample.base (1 + 2 * 2) ∧
    (DCA.mvExample.sub 1 1 1 2).elem 0 1 = DCA.mvExample.elem (0 + 1) (1 + 1) :=
  ⟨(C7_view_addressing DCA.mvExample).1 1 2 (by decide) (by decide),
   (C7_view_addressing DCA.mvExample).2 1 1 1 2 0 1 (by decide) (by decide)
     (by decide) (by decide)⟩

/-- **C9 (counterexample).** The claim states that the `ptr(i, j)` assertions
and the element-access assertions accept exactly the same pairs.  At the 2×3
view, the pair `(2, 3)` is accepted by the `ptr` assertions (which use the
inclusive bounds `i <= rows`, `j <= cols`) but rejected by the strict
element-access assertions. -/
theorem C9_ptr_bounds_counterexample :
    DCA.mvExample.ptrAccepts 2 3 ∧ ¬ DCA.mvExample.elemAccepts 2 3 := by
  decide

/-- **C9 (amended).** Every `(i, j)` accepted by the strict element-access
assertions is accepted by the `ptr(i, j)` assertions, but not conversely:
the `ptr` assertions check the inclusive bounds `0 ≤ i ≤ rows ∧ 0 ≤ j ≤ cols`. -/
theorem C9_ptr_bounds_amended {α : Type*} (m : DCA.MatrixView α) (i j : ℤ)
    (h : m.elemAccepts i j) :
    m.ptrAccepts i j ∧
      (m.ptrAccepts i j ↔ 0 ≤ i ∧ i ≤ (m.rows : ℤ) ∧ 0 ≤ j ∧ j ≤ (m.cols : ℤ)) := by
  obtain ⟨h1, h2, h3, h4⟩ := h
  exact ⟨⟨h1, le_of_lt h2, h3, le_of_lt h4⟩, Iff.rfl⟩

/-- Witness for `C9_ptr_bounds_amended` at the 2×3 view and the pair `(1, 2)`. -/
theorem C9_ptr_bounds_amended_witness :
    DCA.mvExample.ptrAccepts 1 2 :=
  (C9_ptr_bounds_amended DCA.mvExample 1 2 (by decide)).1

/-- **C10.** In the two-offset view constructor, the debug assertions compare
`offset_i` against the parent's column count and `offset_j` against the row
count — swapped relative to the dimensions the offsets index.  Hence for every
non-square parent there is an in-range offset pair (`offset_i < rows`,
`offset_j < cols`) that fails the assertions, and an out-of-range pair that
passes them. -/
theorem C10_swapped_offset_asserts {α : Type*} (m : DCA.MatrixView α)
    (hns : m.rows ≠ m.cols) :
    (∃ oi oj : ℤ, oi < (m.rows : ℤ) ∧ oj < (m.cols : ℤ) ∧
      ¬ m.offsetCtorAsserts oi oj) ∧
    (∃ oi oj : ℤ, ¬ (oi < (m.rows : ℤ) ∧ oj < (m.cols : ℤ)) ∧
      m.offsetCtorAsserts oi oj) := by
  rcases lt_or_gt_of_ne hns with h | h
  · -- rows < cols
    have h' : (m.rows : ℤ) < (m.cols : ℤ) := by exact_mod_cast h
    constructor
    · exact ⟨(m.rows : ℤ) - 1, (m.rows : ℤ), by omega,
        lt_of_le_of_lt (le_of_eq rfl) h', fun hc => by
          have := hc.2; omega⟩
    · exact ⟨(m.rows : ℤ), (m.rows : ℤ) - 1, fun hc => by omega,
        ⟨h', by omega⟩⟩
  · -- cols < rows
    have h' : (m.cols : ℤ) < (m.rows : ℤ) := by exact_mod_cast h
    constructor
    · exact ⟨(m.cols : ℤ), (m.cols : ℤ) - 1, h', by omega, fun hc => by
        have := hc.1; omega⟩
    · exact ⟨(m.cols : ℤ) - 1, (m.cols : ℤ), fun hc => by omega,
        ⟨by omega, h'⟩⟩

/-- Witness for `C10_swapped_offset_asserts` at the non-square 2×3 view. -/
theorem C10_swapped_offset_asserts_witness :
    (∃ oi oj : ℤ, oi < (2 : ℤ) ∧ oj < (3 : ℤ) ∧
      ¬ DCA.mvExample.offsetCtorAsserts oi oj) ∧
    (∃ oi oj : ℤ, ¬ (oi < (2 : ℤ) ∧ oj < (3 : ℤ)) ∧
      DCA.mvExample.offsetCtorAsserts oi oj) :=
  C10_swapped_offset_asserts DCA.mvExample (by decide)

/-- The residual actually accumulated on the spec's time-domain example. -/
theorem timeSymMax_exF : DCA.timeSymMax 4 DCA.exF = 3 := by
  show ((List.range 2).map _).foldl max 0 = 3
  rw [List.range_succ, List.range_succ, List.range_zero]
  show max (max 0 |(DCA.exF 0 + DCA.exF 2) / 2|) |(DCA.exF 1 + DCA.exF 3) / 2| = 3
  norm_num [DCA.exF]

/-- **C3 (counterexample).** For `Nt = 4`, `f = [1, 2, 3, 4]` the loop's
reported maximum residual is `max(|(1+3)/2|, |(2+4)/2|) = 3`, not `2` as the
claim states. -/
theorem C3_residual_counterexample :
    DCA.timeSymMax 4 DCA.exF = 3 ∧ DCA.timeSymMax 4 DCA.exF ≠ 2 :=
  ⟨timeSymMax_exF, by rw [timeSymMax_exF]; norm_num⟩

/-- **C3 (amended).** For every function over an even-size imaginary-time
domain, the time symmetrization pass replaces `f(i)` by
`(f_old(i) − f_old(i + Nt/2))/2` and `f(i + Nt/2)` by its negation, so
afterwards `f(i) + f(i + Nt/2) = 0` for all `i < Nt/2`; for `Nt = 4` and
`f = [1, 2, 3, 4]` the output is `[-1, -1, 1, 1]` and the reported maximum
residual is `3`. -/
theorem C3_time_symmetrization :
    (∀ (n : ℕ) (f : ℕ → ℚ), n % 2 = 0 → ∀ i, i < n / 2 →
      DCA.timeSym n f i = (f i - f (i + n / 2)) / 2 ∧
      DCA.timeSym n f (i + n / 2) = -((f i - f (i + n / 2)) / 2) ∧
      DCA.timeSym n f i + DCA.timeSym n f (i + n / 2) = 0) ∧
    (∀ i < 4, DCA.timeSym 4 DCA.exF i = DCA.exFOut i) ∧
    DCA.timeSymMax 4 DCA.exF = 3 := by
  refine ⟨fun n f _ i hi => ?_,
    fun i hi => by interval_cases i <;> norm_num [DCA.timeSym, DCA.exF, DCA.exFOut],
    timeSymMax_exF⟩
  have hlo := DCA.timeSym_lo f hi
  have hhi := DCA.timeSym_hi f (n := n) (i := i + n / 2) (by omega) (by omega)
  rw [Nat.add_sub_cancel] at hhi
  exact ⟨hlo, hhi, by rw [hlo, hhi]; ring⟩

/-- Witness for `C3_time_symmetrization` at `n = 4`, `f = exF`, `i = 0`. -/
theorem C3_time_symmetrization_witness :
    DCA.timeSym 4 DCA.exF 0 + DCA.timeSym 4 DCA.exF (0 + 4 / 2) = 0 :=
  (C3_time_symmetrization.1 4 DCA.exF (by decide) 0 (by decide)).2.2

/-- **C4.** For every function over an even-size Matsubara-frequency domain,
the frequency symmetrization pass replaces, for `i < Nω/2` with mirror
`j = Nω − 1 − i`, `f(i)` by `(f_old(i) + conj(f_old(j)))/2` and `f(j)` by the
conjugate of that value, so afterwards `f(i) = conj(f(Nω − 1 − i))` for every
`i < Nω`. -/
theorem C4_frequency_symmetrization :
    ∀ (n : ℕ) (f : ℕ → DCA.CQ), n % 2 = 0 →
      (∀ i, i < n / 2 →
        DCA.wSym n f i = (f i + (f (n - 1 - i)).conj).div2 ∧
        DCA.wSym n f (n - 1 - i) = ((f i + (f (n - 1 - i)).conj).div2).conj) ∧
      (∀ i, i < n → DCA.wSym n f i = (DCA.wSym n f (n - 1 - i)).conj) := by
  intro n f hpar
  constructor
  · intro i hi
    refine ⟨DCA.wSym_lo f hi, ?_⟩
    rw [DCA.wSym_mirror f hi, DCA.wSym_lo f hi]
  · intro i hn
    by_cases hi : i < n / 2
    · rw [DCA.wSym_mirror f hi, DCA.CQ.conj_conj]
    · have hj : n - 1 - i < n / 2 := by omega
      have hmir := DCA.wSym_mirror f hj
      have hid : n - 1 - (n - 1 - i) = i := by omega
      rw [hid] at hmir
      rw [hmir]

/-- Witness for `C4_frequency_symmetrization` at `n = 4`, `f = exW`, `i = 0`. -/
theorem C4_frequency_symmetrization_witness :
    DCA.wSym 4 DCA.exW 0 = (DCA.exW 0 + (DCA.exW (4 - 1 - 0)).conj).div2 ∧
    DCA.wSym 4 DCA.exW 0 = (DCA.wSym 4 DCA.exW (4 - 1 - 0)).conj :=
  ⟨((C4_frequency_symmetrization 4 DCA.exW (by decide)).1 0 (by decide)).1,
   (C4_frequency_symmetrization 4 DCA.exW (by decide)).2 0 (by decide)⟩

/-- **C2.** Every supported symmetrization pass is idempotent exactly, in
exact arithmetic: imaginary time, Matsubara frequency (the same loop serves
the compact and extended vertex-frequency domains), real frequency (identity),
spin, the scalar cluster average (real-space and momentum-space overloads are
textually identical, stated for any symmetry table forming a group action),
and the band-pair variants of time, frequency and both cluster passes (the
latter for tables that factor into position and band group actions, which is
how the table of a point-group element acts). -/
theorem C2_symmetrizer_idempotent :
    (∀ (n : ℕ) (f : ℕ → ℚ) (i : ℕ),
      DCA.timeSym n (DCA.timeSym n f) i = DCA.timeSym n f i) ∧
    (∀ (nB n : ℕ) (f : ℕ → ℕ → ℕ → ℚ) (b0 b1 i : ℕ),
      DCA.timeSymBB nB n (DCA.timeSymBB nB n f) b0 b1 i = DCA.timeSymBB nB n f b0 b1 i) ∧
    (∀ (n : ℕ) (f : ℕ → DCA.CQ) (i : ℕ),
      DCA.wSym n (DCA.wSym n f) i = DCA.wSym n f i) ∧
    (∀ (nB n : ℕ) (f : ℕ → ℕ → ℕ → DCA.CQ) (b0 b1 i : ℕ),
      DCA.wSymBB nB n (DCA.wSymBB nB n f) b0 b1 i = DCA.wSymBB nB n f b0 b1 i) ∧
    (∀ (f : ℕ → ℚ) (i : ℕ),
      DCA.wRealSym (DCA.wRealSym f) i = DCA.wRealSym f i) ∧
    (∀ (nB n0 n1 : ℕ) (f : ℕ → ℕ → ℕ → ℕ → ℕ → ℕ → ℚ) (i s1 j s2 x0 x1 : ℕ),
      DCA.spinSym nB n0 n1 (DCA.spinSym nB n0 n1 f) i s1 j s2 x0 x1
        = DCA.spinSym nB n0 n1 f i s1 j s2 x0 x1) ∧
    (∀ (nR nG : ℕ) (sym : ℕ → ℕ → ℕ → ℕ × ℕ), 0 < nG →
      (∀ r S, r < nR → S < nG → (sym r 0 S).1 < nR) →
      (∀ S, S < nG → ∃ π : Equiv.Perm (Fin nG), ∀ r, r < nR →
        ∀ T : Fin nG, (sym (sym r 0 S).1 0 T.val).1 = (sym r 0 (π T).val).1) →
      ∀ (f : ℕ → ℚ) (r : ℕ),
        DCA.clusterSym nR nG sym (DCA.clusterSym nR nG sym f) r
          = DCA.clusterSym nR nG sym f r) ∧
    (∀ (nB nR nG : ℕ) (sym : ℕ → ℕ → ℕ → ℕ × ℕ) (σS βS : ℕ → ℕ → ℕ), 0 < nG →
      (∀ r b S, S < nG → sym r b S = (σS S r, βS S b)) →
      (∀ S r, S < nG → r < nR → σS S r < nR) →
      (∀ S b, S < nG → b < nB → βS S b < nB) →
      (∀ S, S < nG → ∃ π : Equiv.Perm (Fin nG), ∀ T : Fin nG,
        (∀ r, σS T.val (σS S r) = σS (π T).val r) ∧
        (∀ b, βS T.val (βS S b) = βS (π T).val b)) →
      ∀ (f : ℕ → ℕ → ℕ → ℚ) (b0 b1 r : ℕ),
        DCA.clusterSymBBr nB nR nG sym (DCA.clusterSymBBr nB nR nG sym f) b0 b1 r
          = DCA.clusterSymBBr nB nR nG sym f b0 b1 r) ∧
    (∀ (nB nK nG : ℕ) (sym : ℕ → ℕ → ℕ → ℕ × ℕ) (σS βS : ℕ → ℕ → ℕ), 0 < nG →
      (∀ k b S, S < nG → sym k b S = (σS S k, βS S b)) →
      (∀ S k, S < nG → k < nK → σS S k < nK) →
      (∀ S b, S < nG → b < nB → βS S b < nB) →
      (∀ S, S < nG → ∃ π : Equiv.Perm (Fin nG), ∀ T : Fin nG,
        (∀ k, σS T.val (σS S k) = σS (π T).val k) ∧
        (∀ b, βS T.val (βS S b) = βS (π T).val b)) →
      ∀ (f : ℕ → ℕ → ℕ → ℚ) (b0 b1 k : ℕ),
        DCA.clusterSymBBk nB nK nG sym (DCA.clusterSymBBk nB nK nG sym f) b0 b1 k
          = DCA.clusterSymBBk nB nK nG sym f b0 b1 k) :=
  ⟨DCA.timeSym_idem, DCA.timeSymBB_idem, DCA.wSym_idem, DCA.wSymBB_idem,
   fun _ _ => rfl, DCA.spinSym_idem,
   fun nR nG sym hG hrange hgrp => DCA.clusterSym_idem nR nG sym hG hrange hgrp,
   fun nB nR nG sym σS βS hG hfac hσ hβ hgrp =>
     DCA.clusterSymBBr_idem nB nR nG sym σS βS hG hfac hσ hβ hgrp,
   fun nB nK nG sym σS βS hG hfac hσ hβ hgrp =>
     DCA.clusterSymBBk_idem nB nK nG sym σS βS hG hfac hσ hβ hgrp⟩

/-- Witness for `C2_symmetrizer_idempotent`: every pass instantiated at a
concrete input, with all group-action hypotheses discharged for the trivial
one-element table `symTriv`. -/
theorem C2_symmetrizer_idempotent_witness :
    DCA.timeSym 4 (DCA.timeSym 4 DCA.exF) 0 = DCA.timeSym 4 DCA.exF 0 ∧
    DCA.timeSymBB 1 4 (DCA.timeSymBB 1 4 DCA.exFBB) 0 0 0
      = DCA.timeSymBB 1 4 DCA.exFBB 0 0 0 ∧
    DCA.wSym 4 (DCA.wSym 4 DCA.exW) 0 = DCA.wSym 4 DCA.exW 0 ∧
    DCA.wSymBB 1 4 (DCA.wSymBB 1 4 DCA.exWBB) 0 0 0
      = DCA.wSymBB 1 4 DCA.exWBB 0 0 0 ∧
    DCA.wRealSym (DCA.wRealSym DCA.exF) 0 = DCA.wRealSym DCA.exF 0 ∧
    DCA.spinSym 1 1 1 (DCA.spinSym 1 1 1 DCA.exSpin) 0 0 0 0 0 0
      = DCA.spinSym 1 1 1 DCA.exSpin 0 0 0 0 0 0 ∧
    DCA.clusterSym 1 1 DCA.symTriv (DCA.clusterSym 1 1 DCA.symTriv DCA.exF) 0
      = DCA.clusterSym 1 1 DCA.symTriv DCA.exF 0 ∧
    DCA.clusterSymBBr 1 1 1 DCA.symTriv
        (DCA.clusterSymBBr 1 1 1 DCA.symTriv DCA.exFBB) 0 0 0
      = DCA.clusterSymBBr 1 1 1 DCA.symTriv DCA.exFBB 0 0 0 ∧
    DCA.clusterSymBBk 1 1 1 DCA.symTriv
        (DCA.clusterSymBBk 1 1 1 DCA.symTriv DCA.exFBB) 0 0 0
      = DCA.clusterSymBBk 1 1 1 DCA.symTriv DCA.exFBB 0 0 0 :=
  ⟨C2_symmetrizer_idempotent.1 4 DCA.exF 0,
   C2_symmetrizer_idempotent.2.1 1 4 DCA.exFBB 0 0 0,
   C2_symmetrizer_idempotent.2.2.1 4 DCA.exW 0,
   C2_symmetrizer_idempotent.2.2.2.1 1 4 DCA.exWBB 0 0 0,
   C2_symmetrizer_idempotent.2.2.2.2.1 DCA.exF 0,
   C2_symmetrizer_idempotent.2.2.2.2.2.1 1 1 1 DCA.exSpin 0 0 0 0 0 0,
   C2_symmetrizer_idempotent.2.2.2.2.2.2.1 1 1 DCA.symTriv Nat.one_pos
     (fun _ _ _ _ => Nat.one_pos)
     (fun S _ => ⟨Equiv.refl (Fin 1), fun _ _ _ => rfl⟩) DCA.exF 0,
   C2_symmetrizer_idempotent.2.2.2.2.2.2.2.1 1 1 1 DCA.symTriv DCA.zeroMap
     DCA.zeroMap Nat.one_pos (fun _ _ _ _ => rfl) (fun _ _ _ _ => Nat.one_pos)
     (fun _ _ _ _ => Nat.one_pos)
     (fun S _ => ⟨Equiv.refl (Fin 1), fun T => ⟨fun _ => rfl, fun _ => rfl⟩⟩)
     DCA.exFBB 0 0 0,
   C2_symmetrizer_idempotent.2.2.2.2.2.2.2.2 1 1 1 DCA.symTriv DCA.zeroMap
     DCA.zeroMap Nat.one_pos (fun _ _ _ _ => rfl) (fun _ _ _ _ => Nat.one_pos)
     (fun _ _ _ _ => Nat.one_pos)
     (fun S _ => ⟨Equiv.refl (Fin 1), fun T => ⟨fun _ => rfl, fun _ => rfl⟩⟩)
     DCA.exFBB 0 0 0⟩

/-- **C5.** With the fixed-per-walker flag set, walker `w ∈ [0, W)` performs
exactly `⌊M/W⌋ + (1 if w < M mod W else 0)` local measurements, invoking the
measurement callback once per loop iteration; the shares of all walkers sum
to `M`; with `W = 3`, `M = 10` walker 0 performs 4 and walkers 1, 2 perform 3
each. -/
theorem C5_fixed_per_walker_dispatch :
    (∀ M W w : ℕ, 0 < W → w < W →
      (DCA.iterateFixedMeasurements M W w).length
        = M / W + (if w < M % W then 1 else 0)) ∧
    (∀ M W : ℕ, 0 < W →
      ∑ w ∈ Finset.range W, (DCA.iterateFixedMeasurements M W w).length = M) ∧
    (DCA.iterateFixedMeasurements 10 3 0).length = 4 ∧
    (DCA.iterateFixedMeasurements 10 3 1).length = 3 ∧
    (DCA.iterateFixedMeasurements 10 3 2).length = 3 := by
  refine ⟨fun M W w _ _ => ?_, fun M W hW => ?_, by decide, by decide, by decide⟩
  · simp [DCA.iterateFixedMeasurements, DCA.getWorkload]
  · calc ∑ w ∈ Finset.range W, (DCA.iterateFixedMeasurements M W w).length
        = ∑ w ∈ Finset.range W, DCA.getWorkload M W w :=
          Finset.sum_congr rfl fun w _ => by
            simp [DCA.iterateFixedMeasurements]
      _ = M := DCA.getWorkload_sum M W hW

/-- Witness for `C5_fixed_per_walker_dispatch` at `M = 10`, `W = 3`, `w = 0`. -/
theorem C5_fixed_per_walker_dispatch_witness :
    (DCA.iterateFixedMeasurements 10 3 0).length
      = 10 / 3 + (if 0 < 10 % 3 then 1 else 0) ∧
    ∑ w ∈ Finset.range 3, (DCA.iterateFixedMeasurements 10 3 w).length = 10 :=
  ⟨C5_fixed_per_walker_dispatch.1 10 3 0 (by decide) (by decide),
   C5_fixed_per_walker_dispatch.2.1 10 3 (by decide)⟩

/-- **C8.** Invalid configurations are rejected fatally: constructing the
coordinator with `W < 1` or `A < 1` throws, an unrecognized thread-task role
in `integrate()` throws, and the (real-space, scalar) cluster symmetrization
with an empty symmetry group throws. -/
theorem C8_invalid_config_fatal :
    (∀ W A : ℤ, W < 1 ∨ A < 1 → DCA.constructorCheck W A
      = .error "Both the number of walkers and the number of accumulators must be at least 1.") ∧
    (∀ task : String, task ≠ "walker" → task ≠ "accumulator" →
      task ≠ "walker and accumulator" →
      DCA.dispatchTask task = .error "Thread task is undefined.") ∧
    (∀ (nR : ℕ) (sym : ℕ → ℕ → ℕ → ℕ × ℕ) (f : ℕ → ℚ),
      DCA.clusterSymChecked nR 0 sym f = .error "execute") := by
  refine ⟨fun W A h => ?_, fun task h1 h2 h3 => ?_, fun nR sym f => ?_⟩
  · simp [DCA.constructorCheck, h]
  · simp [DCA.dispatchTask, h1, h2, h3]
  · simp [DCA.clusterSymChecked]

/-- Witness for `C8_invalid_config_fatal`: `W = 0`, `A = 1`; the task string
"writer"; an empty symmetry group over one site. -/
theorem C8_invalid_config_fatal_witness :
    DCA.constructorCheck 0 1
      = .error "Both the number of walkers and the number of accumulators must be at least 1." ∧
    DCA.dispatchTask "writer" = .error "Thread task is undefined." ∧
    DCA.clusterSymChecked 1 0 DCA.symTriv DCA.exF = .error "execute" :=
  ⟨C8_invalid_config_fatal.1 0 1 (Or.inl (by decide)),
   C8_invalid_config_fatal.2.1 "writer" (by decide) (by decide) (by decide),
   C8_invalid_config_fatal.2.2 1 DCA.symTriv DCA.exF⟩

/-- **C6 (code bug).** On the failing input (read directory `"cfg_in"`, write
directory `"cfg_out"`, process 0, two configured walkers), the snapshot-read
routine of the source opens `cfg_out/process_0.hdf5` — the *write*-directory
path — with an HDF5 *writer* and writes every key, whereas the claimed (and
spec-intended, §4.4/§9) behavior opens `cfg_in/process_0.hdf5` with a reader
and reads every key into its slot.  The failure half of the claim does hold:
when the open fails, every slot is cleared. -/
theorem C6_snapshot_read_code_bug :
    (DCA.readConfigurations "cfg_in" "cfg_out" 0 [[1], [2]] false).ops
      = [.openWriter "cfg_out/process_0.hdf5",
         .writeKey "configuration_0", .writeKey "configuration_1"] ∧
    (DCA.readConfigurationsSpec "cfg_in" 0 (fun _ => []) [[1], [2]] false).ops
      = [.openReader "cfg_in/process_0.hdf5",
         .readKey "configuration_0", .readKey "configuration_1"] ∧
    (DCA.readConfigurations "cfg_in" "cfg_out" 0 [[1], [2]] false).ops
      ≠ (DCA.readConfigurationsSpec "cfg_in" 0 (fun _ => []) [[1], [2]] false).ops ∧
    (DCA.readConfigurations "cfg_in" "cfg_out" 0 [[1], [2]] true).buffers
      = [[], []] := by
  refine ⟨?_, ?_, ?_, ?_⟩ <;> decide

/-- **C1 (counterexample).** The claim — in every run the accumulators'
measurement total equals the walkers' total equals `M_local` — fails for the
shared-counter regime: at `W = 2`, `A = 1`, `M_local = 1`, fixed flag off,
the run of `cexRun` (both walkers atomically load `measurements_done_ = 0`
at loop entry before either increments it) terminates with 2 walker
measurements, not 1. -/
theorem C1_rendezvous_counterexample :
    ¬ (∀ s : DCA.MCState, DCA.Reachable DCA.cfgCex s → DCA.Terminal DCA.cfgCex s →
        DCA.sumMeasured DCA.cfgCex s = DCA.sumProduced DCA.cfgCex s ∧
        DCA.sumProduced DCA.cfgCex s = DCA.cfgCex.M) := by
  intro h
  obtain ⟨s, hr, ht, hp, _⟩ := DCA.cexRun
  have h2 := (h s hr ht).2
  rw [hp] at h2
  exact absurd h2 (by decide)

/-- **C1 (amended).** In every run of the threaded integration, each sample a
walker hands off via the idle-stack rendezvous and `updateFrom` is measured
by exactly one accumulator: at termination the accumulators' total
measurement count equals the walkers' total sample count.  That total equals
`M_local` whenever the fixed-per-walker flag is set; in the shared-counter
regime a run may exceed `M_local` (each walker's loop entry reads the shared
counter without reserving a slot). -/
theorem C1_rendezvous_amended (cfg : DCA.MCConfig) (s : DCA.MCState)
    (hW : 0 < cfg.W) (hreach : DCA.Reachable cfg s) (hterm : DCA.Terminal cfg s) :
    DCA.sumMeasured cfg s = DCA.sumProduced cfg s ∧
      (cfg.fixed = true → DCA.sumProduced cfg s = cfg.M) := by
  have hinv := DCA.inv_reachable hreach
  constructor
  · have h0 := DCA.sumHasSample_terminal cfg s hterm
    have hc := hinv.count
    omega
  · intro hfix
    exact DCA.sumProduced_terminal_fixed cfg s hW hinv hterm hfix

/-- Witness for `C1_rendezvous_amended`: the completed run of `cexRun`,
where the accumulator measured exactly the two samples produced. -/
theorem C1_rendezvous_amended_witness :
    ∃ s : DCA.MCState, DCA.Reachable DCA.cfgCex s ∧ DCA.Terminal DCA.cfgCex s ∧
      DCA.sumMeasured DCA.cfgCex s = DCA.sumProduced DCA.cfgCex s := by
  obtain ⟨s, hr, ht, _, _⟩ := DCA.cexRun
  exact ⟨s, hr, ht, (C1_rendezvous_amended DCA.cfgCex s (by decide) hr ht).1⟩
